import Mathlib

/-!
# Verification of a Connect Four MCTS/UCT engine

Shallow embedding of `connect_four.py` and `algorithm3_uct.py`:
the mutable 6×7 board with its move stack and last-move marker, and the
UCT search (`MCTSNode`, selection / expansion / rollout / backpropagation,
final move decision).  Randomness is modelled by an explicit stream of
natural-number draws (`random.choice(lst)` becomes indexing by
`draw % lst.length`); floating-point `math.sqrt` / `math.log` are passed
in as abstract functions on `ℚ` (no claim here depends on their values);
printing is modelled by an explicit list of output events.
-/

/-! ## Board grid: `self.board`, a list of 6 rows of 7 cells, row 0 at the bottom.
Cells are the characters R, Y, O.  Out-of-range reads yield the sentinel X,
which never occurs on a real board. -/

def Grid := List (List Char)

instance : DecidableEq Grid := by unfold Grid; infer_instance

def getCell (g : Grid) (r c : Nat) : Char :=
  (g.getD r []).getD c 'X'

def setCell (g : Grid) (r c : Nat) (v : Char) : Grid :=
  g.set r ((g.getD r []).set c v)

/-! ## The game state: board grid, `last_move` marker, `move_stack`.
The Python list `move_stack` grows at the end; here the head of the list is
the most recent entry (the top of the stack). -/

structure ConnectFour where
  board : Grid
  last_move : Option (Nat × Nat)
  move_stack : List (Nat × Nat)
deriving DecidableEq

namespace ConnectFour

/-- `get_legal_moves`: 1-indexed columns whose top cell (row 5) is empty,
in ascending order. -/
def get_legal_moves (s : ConnectFour) : List Nat :=
  ((List.range 7).filter (fun c => getCell s.board 5 c == 'O')).map (fun c => c + 1)

/-- `make_move`: place `player` in the first empty row of `column` (1-indexed),
push onto the move stack and update the last-move marker; returns the updated
state together with the success flag. -/
def make_move (s : ConnectFour) (column : Nat) (player : Char) : ConnectFour × Bool :=
  let col_idx := column - 1
  match (List.range 6).find? (fun r => getCell s.board r col_idx == 'O') with
  | some r =>
      (⟨setCell s.board r col_idx player, some (r, col_idx), (r, col_idx) :: s.move_stack⟩, true)
  | none => (s, false)

/-- Fallback path of `undo_move`: scan the column from the top for the first
piece, clear it, pop the stack only if its top matches exactly. -/
def undoFallback (s : ConnectFour) (col_idx : Nat) : ConnectFour :=
  match (List.range 6).reverse.find? (fun r => !(getCell s.board r col_idx == 'O')) with
  | some r =>
      let stack1 := if s.move_stack.head? == some (r, col_idx) then s.move_stack.tail
                    else s.move_stack
      ⟨setCell s.board r col_idx 'O', stack1.head?, stack1⟩
  | none => s

/-- `undo_move`: fast path when the stack top is in the requested column,
otherwise the fallback scan. -/
def undo_move (s : ConnectFour) (column : Nat) : ConnectFour :=
  let col_idx := column - 1
  match s.move_stack with
  | (r, c) :: rest =>
      if c = col_idx then ⟨setCell s.board r c 'O', rest.head?, rest⟩
      else undoFallback s col_idx
  | [] => undoFallback s col_idx

/-! ### Win checking -/

/-- Bounds test for the `while` condition of `_check_win` (integer coordinates). -/
def inB (r c : Int) : Bool :=
  0 ≤ r && r < 6 && 0 ≤ c && c < 7

/-- The `while` loop of `_check_win`: walk from `(r, c)` in direction
`(dx, dy)` counting in-bounds cells owned by `player`.  On a 6×7 board no
such run exceeds 6 cells, so fuel 7 never runs out. -/
def countDir (g : Grid) (player : Char) : Nat → Int → Int → Int → Int → Nat
  | 0, _, _, _, _ => 0
  | fuel + 1, r, c, dx, dy =>
      if inB r c && (getCell g r.toNat c.toNat == player) then
        1 + countDir g player fuel (r + dx) (c + dy) dx dy
      else 0

/-- The four axis pairs checked by `_check_win`, in source order:
horizontal, vertical, the two diagonals. -/
def dirPairs : List ((Int × Int) × (Int × Int)) :=
  [((0, 1), (0, -1)), ((1, 0), (-1, 0)), ((1, 1), (-1, -1)), ((1, -1), (-1, 1))]

/-- `_check_win(row, col)`: the owner of the placement cell wins if along some
axis pair the two outward runs plus the cell itself count at least 4. -/
def _check_win (s : ConnectFour) (row col : Nat) : Option Char :=
  let player := getCell s.board row col
  dirPairs.findSome? (fun dp =>
    let cnt := 1
      + countDir s.board player 7 ((row : Int) + dp.1.1) ((col : Int) + dp.1.2) dp.1.1 dp.1.2
      + countDir s.board player 7 ((row : Int) + dp.2.1) ((col : Int) + dp.2.2) dp.2.1 dp.2.2
    if 4 ≤ cnt then some player else none)

/-- Row-major cell coordinates, as traversed by `_check_board_for_win`. -/
def allCells : List (Nat × Nat) :=
  (List.range 6).flatMap (fun r => (List.range 7).map (fun c => (r, c)))

/-- `_check_board_for_win`: scan every occupied cell row-major and return the
first winner that `_check_win` reports. -/
def _check_board_for_win (s : ConnectFour) : Option Char :=
  allCells.findSome? (fun rc =>
    if getCell s.board rc.1 rc.2 == 'O' then none else _check_win s rc.1 rc.2)

/-- `is_terminal`: win through the last move if the marker is set (whole-board
scan otherwise), then the draw test (no legal moves). -/
def is_terminal (s : ConnectFour) : Bool × Option Int :=
  let drawCheck : Bool × Option Int :=
    if s.get_legal_moves.length = 0 then (true, some 0) else (false, none)
  match s.last_move with
  | some rc =>
      match _check_win s rc.1 rc.2 with
      | some w => (true, some (if w == 'R' then -1 else 1))
      | none => drawCheck
  | none =>
      match _check_board_for_win s with
      | some w => (true, some (if w == 'R' then -1 else 1))
      | none => drawCheck

/-- The API invariant relating the last-move marker to the move stack: the
marker is exactly the top of the stack (`none` for the empty stack).  It holds
for every state the Python constructors and mutators can produce. -/
def Consistent (s : ConnectFour) : Prop :=
  s.last_move = s.move_stack.head?

instance (s : ConnectFour) : Decidable (Consistent s) := by
  unfold Consistent; infer_instance

end ConnectFour

/-! ## The search tree (`MCTSNode`)

A node carries `wi` (accumulated value), `ni` (visit count) and its children,
keyed by move.  Python's parent pointers become paths from the root; the
child dictionary becomes an association list (keys are unique because
expansion only ever adds a move that is not yet a child). -/

inductive MCTSTree where
  | node (wi : Int) (ni : Nat) (children : List (Nat × MCTSTree))

namespace MCTSTree

def wi : MCTSTree → Int
  | node w _ _ => w

def ni : MCTSTree → Nat
  | node _ n _ => n

def children : MCTSTree → List (Nat × MCTSTree)
  | node _ _ ch => ch

/-- `get_value`: 0 for an unvisited node, else `wi / ni` clamped to `[-1, 1]`. -/
def get_value (t : MCTSTree) : ℚ :=
  if t.ni = 0 then 0 else max (-1) (min 1 ((t.wi : ℚ) / (t.ni : ℚ)))

/-- `is_fully_expanded`: compares only the child count with the legal-move
count, as the source does. -/
def is_fully_expanded (t : MCTSTree) (legal : List Nat) : Bool :=
  t.children.length == legal.length

end MCTSTree

/-- First child stored under move `m` (Python `node.children[move]`). -/
def lookupChild : List (Nat × MCTSTree) → Nat → Option MCTSTree
  | [], _ => none
  | q :: rest, m => if q.1 = m then some q.2 else lookupChild rest m

/-- Rewrite the child stored under move `m` in place. -/
def updateChild (ch : List (Nat × MCTSTree)) (m : Nat) (f : MCTSTree → MCTSTree) :
    List (Nat × MCTSTree) :=
  ch.map (fun q => if q.1 = m then (q.1, f q.2) else q)

/-! ## Extended values

`get_ucb_value` returns `float("inf")` / `float("-inf")` for unvisited nodes;
we model the value lattice `-∞ < finite < +∞` explicitly. -/

inductive XQ where
  | negInf
  | fin (q : ℚ)
  | posInf
deriving DecidableEq

/-- Strict order on extended values matching the float comparisons used. -/
def XQ.ltB : XQ → XQ → Bool
  | negInf, negInf => false
  | negInf, _ => true
  | fin _, negInf => false
  | fin a, fin b => a < b
  | fin _, posInf => true
  | posInf, _ => false

/-- `get_ucb_value(exploration_constant, is_max_player)`.  The parent's visit
count is passed in place of the Python parent pointer (`none` for the root).
`sqrtF` and `logF` stand for `math.sqrt` and `math.log`. -/
def get_ucb_value (sqrtF logF : ℚ → ℚ) (t : MCTSTree) (parentNi : Option Nat)
    (exploration_constant : ℚ) (is_max_player : Bool) : XQ :=
  if t.ni = 0 then (if is_max_player then XQ.posInf else XQ.negInf)
  else
    match parentNi with
    | none => XQ.fin t.get_value
    | some pn =>
        if pn = 0 then XQ.fin t.get_value
        else
          let exploitation := t.get_value
          let exploration := exploration_constant * sqrtF (logF (pn : ℚ) / (t.ni : ℚ))
          XQ.fin (if is_max_player then exploitation + exploration
                  else exploitation - exploration)

/-! ## Randomness

`random.choice(lst)` is modelled by consuming one natural-number draw from an
explicit stream and indexing `lst[draw % len(lst)]`. -/

def rngNext : List Nat → Nat × List Nat
  | [] => (0, [])
  | d :: rest => (d, rest)

def choiceNat (l : List Nat) (d : Nat) : Nat :=
  l.getD (d % l.length) 0

/-! ## Output events

One constructor per `print` statement of `UCT.select_move`, carrying the
printed data; string formatting is not modelled. -/

inductive Out where
  | wiLine (w : Int)
  | niLine (n : Nat)
  | vLine (col : Nat) (v : XQ)
  | moveSel (m : Nat)
  | nodeAdded
  | rolloutMove (m : Nat)
  | termVal (v : Int)
  | updated (w : Int) (n : Nat)
  | colVal (col : Nat) (v : Option ℚ)
  | finalMove (m : Nat)
deriving DecidableEq

/-! ## Backpropagation

`MCTSAlgorithm.backpropagate` walks from the leaf to the root with a depth
counter that starts at 0 **at the leaf**.  Here the walk is rendered top-down
along the root-to-leaf path, so a node whose remaining path has length `d`
sits `d` steps above the leaf and receives exactly the Python loop's depth
`d`. -/

def backprop_go (isMaxP : Bool) (v : Int) : List Nat → MCTSTree → MCTSTree
  | path, MCTSTree.node w n ch =>
      let isMaxAtDepth := (path.length % 2 == 0) == isMaxP
      let w1 := if isMaxAtDepth then w + v else w - v
      match path with
      | [] => MCTSTree.node w1 (n + 1) ch
      | m :: rest => MCTSTree.node w1 (n + 1) (updateChild ch m (backprop_go isMaxP v rest))

/-- `value = max(-1, min(1, value))` at the top of `backpropagate`. -/
def clampOutcome (v : Int) : Int := max (-1) (min 1 v)

def backpropagate (isMaxP : Bool) (t : MCTSTree) (path : List Nat) (value : Int) : MCTSTree :=
  backprop_go isMaxP (clampOutcome value) path t

/-! ## The UCT simulation loop (`UCT.select_move`) -/

/-- UCB comparison pass over the legal moves of a fully expanded node:
returns the running best (move, score) — strict improvement only, seeded with
`-inf` for the maximizing mover and `+inf` for the minimizing one — together
with the `ucb_values` trace in evaluation order. -/
def ucbStep (sqrtF logF : ℚ → ℚ) (cExp : ℚ) (isY : Bool) (parent : MCTSTree)
    (acc : (Option Nat × XQ) × List (Nat × XQ)) (move : Nat) :
    (Option Nat × XQ) × List (Nat × XQ) :=
  let child := (lookupChild parent.children move).getD (MCTSTree.node 0 0 [])
  let ucb := get_ucb_value sqrtF logF child (some parent.ni) cExp isY
  let best :=
    if isY then (if XQ.ltB acc.1.2 ucb then (some move, ucb) else acc.1)
    else (if XQ.ltB ucb acc.1.2 then (some move, ucb) else acc.1)
  (best, acc.2 ++ [(move, ucb)])

def ucbFold (sqrtF logF : ℚ → ℚ) (cExp : ℚ) (isY : Bool) (parent : MCTSTree)
    (legal : List Nat) : (Option Nat × XQ) × List (Nat × XQ) :=
  legal.foldl (ucbStep sqrtF logF cExp isY parent)
    ((none, if isY then XQ.negInf else XQ.posInf), [])

/-- Result of the selection/expansion phase of one simulation:
`path` is `moves_to_undo` (also the tree path from the root to the node that
backpropagation starts from), `tree` is the root with the newly expanded node
already inserted. -/
structure SelRes where
  path : List Nat
  tree : MCTSTree
  state : ConnectFour
  player : Char
  rng : List Nat
  out : List Out

/-- The selection-and-expansion `while` loop.  Each iteration either stops or
applies one move, so 43 units of fuel are never exhausted on a 6×7 board.
The two `none` fallthroughs (no best UCB move / no unexplored move) are
unreachable under the tree invariants maintained by the loop; Python would
raise there. -/
def selLoop (sqrtF logF : ℚ → ℚ) (cExp : ℚ) (verbose : Bool) :
    Nat → MCTSTree → ConnectFour → Char → List Nat → SelRes
  | 0, t, s, p, rng => ⟨[], t, s, p, rng, []⟩
  | fuel + 1, t, s, p, rng =>
    let legal := s.get_legal_moves
    if legal.length = 0 then ⟨[], t, s, p, rng, []⟩
    else if (s.is_terminal).1 then ⟨[], t, s, p, rng, []⟩
    else if t.is_fully_expanded legal then
      let isY := p == 'Y'
      let folded := ucbFold sqrtF logF cExp isY t legal
      match folded.1.1 with
      | none => ⟨[], t, s, p, rng, []⟩
      | some m =>
          let o := if verbose then
              [Out.wiLine t.wi, Out.niLine t.ni]
                ++ folded.2.map (fun q => Out.vLine q.1 q.2) ++ [Out.moveSel m]
            else []
          let child := (lookupChild t.children m).getD (MCTSTree.node 0 0 [])
          let s1 := (s.make_move m p).1
          let p1 := if p == 'Y' then 'R' else 'Y'
          let sub := selLoop sqrtF logF cExp verbose fuel child s1 p1 rng
          ⟨m :: sub.path, MCTSTree.node t.wi t.ni (updateChild t.children m (fun _ => sub.tree)),
            sub.state, sub.player, sub.rng, o ++ sub.out⟩
    else
      let unexplored := legal.filter (fun m => (lookupChild t.children m).isNone)
      match unexplored with
      | [] => ⟨[], t, s, p, rng, []⟩
      | _ :: _ =>
          let d := rngNext rng
          let m := choiceNat unexplored d.1
          let o := if verbose then
              [Out.wiLine t.wi, Out.niLine t.ni, Out.moveSel m, Out.nodeAdded]
            else []
          let s1 := (s.make_move m p).1
          let p1 := if p == 'Y' then 'R' else 'Y'
          ⟨[m], MCTSTree.node t.wi t.ni (t.children ++ [(m, MCTSTree.node 0 0 [])]),
            s1, p1, d.2, o⟩

/-- The rollout `while` loop: random legal moves until the state is terminal,
recording the moves for the later undo. -/
def rolloutLoop : Nat → ConnectFour → Char → List Nat →
    List Nat × ConnectFour × Char × List Nat
  | 0, s, _p, rng => ([], s, _p, rng)
  | fuel + 1, s, p, rng =>
    let legal := s.get_legal_moves
    if legal.length = 0 then ([], s, p, rng)
    else if (s.is_terminal).1 then ([], s, p, rng)
    else
      let d := rngNext rng
      let m := choiceNat legal d.1
      let s1 := (s.make_move m p).1
      let p1 := if p == 'Y' then 'R' else 'Y'
      let rest := rolloutLoop fuel s1 p1 d.2
      (m :: rest.1, rest.2.1, rest.2.2.1, rest.2.2.2)

/-- The `(wi, ni)` pairs along a root-to-leaf path (used by the verbose
"Updated values" report, which prints them skipping the root). -/
def nodesAlong : MCTSTree → List Nat → List (Int × Nat)
  | t, [] => [(t.wi, t.ni)]
  | t, m :: rest =>
      (t.wi, t.ni) :: (match lookupChild t.children m with
        | some c => nodesAlong c rest
        | none => [])

/-- State threaded through the simulation loop of `select_move`. -/
structure SimSt where
  tree : MCTSTree
  state : ConnectFour
  rng : List Nat
  out : List Out

/-- One full simulation: selection/expansion, rollout, terminal value,
undo of all rollout moves then of all selection moves (LIFO), and
backpropagation along the selection path. -/
def simulateOnce (sqrtF logF : ℚ → ℚ) (cExp : ℚ) (verbose : Bool)
    (player : Char) (isMaxP : Bool) (st : SimSt) : SimSt :=
  let sel := selLoop sqrtF logF cExp verbose 43 st.tree st.state player st.rng
  let roll := rolloutLoop 43 sel.state sel.player sel.rng
  let tv := (roll.2.1.is_terminal).2.getD 0
  let oRoll := if verbose then roll.1.map Out.rolloutMove ++ [Out.termVal tv] else []
  let s1 := roll.1.reverse.foldl ConnectFour.undo_move roll.2.1
  let s0 := sel.path.reverse.foldl ConnectFour.undo_move s1
  let t1 := backpropagate isMaxP sel.tree sel.path tv
  let oUpd := if verbose then ((nodesAlong t1 sel.path).drop 1).map (fun q => Out.updated q.1 q.2)
              else []
  ⟨t1, s0, roll.2.2.2, st.out ++ sel.out ++ oRoll ++ oUpd⟩

/-- `for _ in range(self.num_simulations)`. -/
def runSims (sqrtF logF : ℚ → ℚ) (cExp : ℚ) (verbose : Bool)
    (player : Char) (isMaxP : Bool) : Nat → SimSt → SimSt
  | 0, st => st
  | n + 1, st => runSims sqrtF logF cExp verbose player isMaxP n
      (simulateOnce sqrtF logF cExp verbose player isMaxP st)

/-- Value assigned to a legal move by the final decision: the child's plain
average value, or 0.0 for a move with no child. -/
def moveValue (ch : List (Nat × MCTSTree)) (m : Nat) : ℚ :=
  match lookupChild ch m with
  | some c => c.get_value
  | none => 0

/-- The final decision pass: running best over the legal moves in order,
strict improvement only, seeded with `-inf` (maximizing) or `+inf`
(minimizing). -/
def decisionStep (isMaxP : Bool) (f : Nat → ℚ) (acc : Option Nat × XQ) (m : Nat) :
    Option Nat × XQ :=
  let v := XQ.fin (f m)
  if isMaxP then (if XQ.ltB acc.2 v then (some m, v) else acc)
  else (if XQ.ltB v acc.2 then (some m, v) else acc)

def decisionFold (isMaxP : Bool) (legal : List Nat) (f : Nat → ℚ) : Option Nat × XQ :=
  legal.foldl (decisionStep isMaxP f) (none, if isMaxP then XQ.negInf else XQ.posInf)

/-- The returned move: the decision pass's best move, falling back (when no
move was ever picked, i.e. no legal moves) to the first legal move or 1. -/
def pickBest (isMaxP : Bool) (legal : List Nat) (f : Nat → ℚ) : Nat :=
  match (decisionFold isMaxP legal f).1 with
  | some m => m
  | none => legal.headD 1

/-- Full result of `UCT.select_move`: the returned move plus the final tree,
board state, random stream and printed output. -/
structure MoveRes where
  move : Nat
  tree : MCTSTree
  state : ConnectFour
  rng : List Nat
  out : List Out

/-- `UCT.select_move`: run `num_simulations` simulations from a fresh root,
then pick the root move with the extreme plain average value (max for 'Y',
min otherwise), ties resolving to the first legal move in ascending order;
a legal move with no child counts as 0. -/
def select_move (sqrtF logF : ℚ → ℚ) (cExp : ℚ) (verbose brief suppress : Bool)
    (game : ConnectFour) (player : Char) (num_simulations : Nat) (rng : List Nat) : MoveRes :=
  let isMaxP := player == 'Y'
  let res := runSims sqrtF logF cExp verbose player isMaxP num_simulations
    ⟨MCTSTree.node 0 0 [], game, rng, []⟩
  let legal := res.state.get_legal_moves
  let oCols := if brief || verbose then
      (List.range 7).map (fun i =>
        let c := i + 1
        Out.colVal c (if legal.contains c then some (moveValue res.tree.children c) else none))
    else []
  let best := pickBest isMaxP legal (moveValue res.tree.children)
  let oFin := if suppress then [] else [Out.finalMove best]
  ⟨best, res.tree, res.state, res.rng, res.out ++ oCols ++ oFin⟩

/-! ## Basic lemmas: the board round-trip `make_move` / `undo_move` -/

theorem list_set_getD_self (l : List Char) (c : Nat) (h : l.getD c 'X' = 'O') :
    l.set c 'O' = l := by
  induction l generalizing c with
  | nil => simp at h
  | cons a l ih =>
    cases c with
    | zero => simp only [List.getD_cons_zero] at h; simp [h]
    | succ c =>
      simp only [List.getD_cons_succ] at h
      simpa using ih c h

theorem setCell_cancel (g : Grid) (r c : Nat) (p : Char) (h : getCell g r c = 'O') :
    setCell (setCell g r c p) r c 'O' = g := by
  induction g generalizing r with
  | nil => simp [getCell] at h
  | cons row rest ih =>
    cases r with
    | zero =>
      simp only [getCell, List.getD_cons_zero] at h
      simp only [setCell, List.getD_cons_zero, List.set_cons_zero, List.set_set]
      rw [list_set_getD_self row c h]
    | succ r =>
      simp only [getCell, List.getD_cons_succ] at h
      simp only [setCell, List.getD_cons_succ, List.set_cons_succ]
      rw [← setCell]
      exact congrArg (row :: ·) (ih r h)

namespace ConnectFour

theorem mem_legal_iff (s : ConnectFour) (m : Nat) :
    m ∈ s.get_legal_moves ↔ 1 ≤ m ∧ m ≤ 7 ∧ getCell s.board 5 (m - 1) = 'O' := by
  simp only [get_legal_moves, List.mem_map, List.mem_filter, List.mem_range, beq_iff_eq]
  constructor
  · rintro ⟨c, ⟨hc, hcell⟩, rfl⟩
    exact ⟨Nat.le_add_left 1 c, by omega, by simpa using hcell⟩
  · rintro ⟨h1, h7, hcell⟩
    exact ⟨m - 1, ⟨by omega, hcell⟩, by omega⟩

theorem make_move_success (s : ConnectFour) (m : Nat) (p : Char)
    (h : m ∈ s.get_legal_moves) : (s.make_move m p).2 = true := by
  obtain ⟨-, -, hcell⟩ := (mem_legal_iff s m).mp h
  cases hf : (List.range 6).find? (fun r => getCell s.board r (m - 1) == 'O') with
  | none =>
      have h5 := List.find?_eq_none.mp hf 5 (by simp)
      simp [hcell] at h5
  | some r => simp [make_move, hf]

theorem undo_make (s : ConnectFour) (m : Nat) (p : Char)
    (hs : (s.make_move m p).2 = true) (hc : Consistent s) :
    ((s.make_move m p).1).undo_move m = s := by
  cases hf : (List.range 6).find? (fun r => getCell s.board r (m - 1) == 'O') with
  | none => simp [make_move, hf] at hs
  | some r =>
    have hcell : getCell s.board r (m - 1) = 'O' := by
      simpa using List.find?_some hf
    obtain ⟨b, lm, stk⟩ := s
    simp only [Consistent] at hc
    simp [make_move, hf, undo_move, setCell_cancel _ _ _ _ hcell, hc]

theorem make_consistent (s : ConnectFour) (m : Nat) (p : Char) (hc : Consistent s) :
    Consistent (s.make_move m p).1 := by
  cases hf : (List.range 6).find? (fun r => getCell s.board r (m - 1) == 'O') with
  | none => simpa [make_move, hf] using hc
  | some r => simp [make_move, hf, Consistent]

end ConnectFour

theorem choiceNat_mem (l : List Nat) (d : Nat) (h : l ≠ []) : choiceNat l d ∈ l := by
  have hlt : d % l.length < l.length := Nat.mod_lt _ (List.length_pos.mpr h)
  unfold choiceNat
  rw [List.getD_eq_getElem l 0 hlt]
  exact List.getElem_mem hlt

theorem foldl_ucbStep_mem (sq lg : ℚ → ℚ) (cE : ℚ) (isY : Bool) (parent : MCTSTree) :
    ∀ (l : List Nat) (acc : (Option Nat × XQ) × List (Nat × XQ)) (m : Nat),
      (l.foldl (ucbStep sq lg cE isY parent) acc).1.1 = some m →
      acc.1.1 = some m ∨ m ∈ l := by
  intro l
  induction l with
  | nil => intro acc m h; exact Or.inl h
  | cons x xs ih =>
    intro acc m h
    rcases ih _ m h with h' | h'
    · simp only [ucbStep] at h'
      split at h' <;> split at h' <;>
        first
          | (simp only [Option.some.injEq] at h'; exact Or.inr (h' ▸ List.mem_cons_self x xs))
          | exact Or.inl h'
    · exact Or.inr (List.mem_cons_of_mem _ h')

theorem ucbFold_mem (sq lg : ℚ → ℚ) (cE : ℚ) (isY : Bool) (parent : MCTSTree)
    (legal : List Nat) (m : Nat) (h : (ucbFold sq lg cE isY parent legal).1.1 = some m) :
    m ∈ legal := by
  rcases foldl_ucbStep_mem sq lg cE isY parent legal _ m h with h' | h'
  · simp at h'
  · exact h'

/-! ## Restoration: every simulation puts the shared board back exactly -/

theorem selLoop_restore (sq lg : ℚ → ℚ) (cE : ℚ) (vb : Bool) :
    ∀ (fuel : Nat) (t : MCTSTree) (s : ConnectFour) (p : Char) (rng : List Nat),
      s.Consistent →
      (selLoop sq lg cE vb fuel t s p rng).path.reverse.foldl ConnectFour.undo_move
          (selLoop sq lg cE vb fuel t s p rng).state = s
      ∧ ((selLoop sq lg cE vb fuel t s p rng).state).Consistent := by
  intro fuel
  induction fuel with
  | zero =>
    intro t s p rng hc
    exact ⟨rfl, hc⟩
  | succ n ih =>
    intro t s p rng hc
    simp only [selLoop]
    by_cases h1 : (s.get_legal_moves).length = 0
    · rw [if_pos h1]; exact ⟨rfl, hc⟩
    · rw [if_neg h1]
      by_cases h2 : (s.is_terminal).1 = true
      · rw [if_pos h2]; exact ⟨rfl, hc⟩
      · rw [if_neg h2]
        by_cases h3 : t.is_fully_expanded s.get_legal_moves = true
        · rw [if_pos h3]
          cases hub : (ucbFold sq lg cE (p == 'Y') t s.get_legal_moves).1.1 with
          | none => exact ⟨rfl, hc⟩
          | some m =>
            have hmem : m ∈ s.get_legal_moves := ucbFold_mem _ _ _ _ _ _ _ hub
            have hsucc := ConnectFour.make_move_success s m p hmem
            have hc1 := ConnectFour.make_consistent s m p hc
            obtain ⟨ih1, ih2⟩ := ih ((lookupChild t.children m).getD (MCTSTree.node 0 0 []))
              (s.make_move m p).1 (if p == 'Y' then 'R' else 'Y') rng hc1
            refine ⟨?_, ih2⟩
            simp only [List.reverse_cons, List.foldl_append, ih1, List.foldl_cons,
              List.foldl_nil]
            exact ConnectFour.undo_make s m p hsucc hc
        · rw [if_neg h3]
          cases hu : (s.get_legal_moves).filter (fun m => (lookupChild t.children m).isNone) with
          | nil => exact ⟨rfl, hc⟩
          | cons u us =>
            have h0 := choiceNat_mem (u :: us) (rngNext rng).1 (by simp)
            have hmem : choiceNat (u :: us) (rngNext rng).1 ∈ s.get_legal_moves := by
              refine List.mem_of_mem_filter (p := fun m => (lookupChild t.children m).isNone) ?_
              rw [hu]; exact h0
            have hsucc := ConnectFour.make_move_success s _ p hmem
            have hc1 := ConnectFour.make_consistent s
              (choiceNat (u :: us) (rngNext rng).1) p hc
            refine ⟨?_, hc1⟩
            simp only [List.reverse_cons, List.reverse_nil, List.nil_append,
              List.foldl_cons, List.foldl_nil]
            exact ConnectFour.undo_make s _ p hsucc hc

theorem rolloutLoop_restore :
    ∀ (fuel : Nat) (s : ConnectFour) (p : Char) (rng : List Nat),
      s.Consistent →
      (rolloutLoop fuel s p rng).1.reverse.foldl ConnectFour.undo_move
          (rolloutLoop fuel s p rng).2.1 = s
      ∧ ((rolloutLoop fuel s p rng).2.1).Consistent := by
  intro fuel
  induction fuel with
  | zero =>
    intro s p rng hc
    exact ⟨rfl, hc⟩
  | succ n ih =>
    intro s p rng hc
    simp only [rolloutLoop]
    by_cases h1 : (s.get_legal_moves).length = 0
    · rw [if_pos h1]; exact ⟨rfl, hc⟩
    · rw [if_neg h1]
      by_cases h2 : (s.is_terminal).1 = true
      · rw [if_pos h2]; exact ⟨rfl, hc⟩
      · rw [if_neg h2]
        have hne : s.get_legal_moves ≠ [] := by
          intro hnil; exact h1 (by simp [hnil])
        have hmem : choiceNat s.get_legal_moves (rngNext rng).1 ∈ s.get_legal_moves :=
          choiceNat_mem _ _ hne
        have hsucc := ConnectFour.make_move_success s _ p hmem
        have hc1 := ConnectFour.make_consistent s
          (choiceNat s.get_legal_moves (rngNext rng).1) p hc
        obtain ⟨ih1, ih2⟩ := ih (s.make_move (choiceNat s.get_legal_moves (rngNext rng).1) p).1
          (if p == 'Y' then 'R' else 'Y') (rngNext rng).2 hc1
        refine ⟨?_, ih2⟩
        simp only [List.reverse_cons, List.foldl_append, ih1, List.foldl_cons, List.foldl_nil]
        exact ConnectFour.undo_make s _ p hsucc hc

/-- One simulation leaves the shared board exactly as it found it. -/
theorem simulateOnce_state (sq lg : ℚ → ℚ) (cE : ℚ) (vb : Bool) (pl : Char) (mx : Bool)
    (st : SimSt) (hc : st.state.Consistent) :
    (simulateOnce sq lg cE vb pl mx st).state = st.state := by
  obtain ⟨hsel, hselc⟩ := selLoop_restore sq lg cE vb 43 st.tree st.state pl st.rng hc
  obtain ⟨hroll, -⟩ := rolloutLoop_restore 43
    (selLoop sq lg cE vb 43 st.tree st.state pl st.rng).state
    (selLoop sq lg cE vb 43 st.tree st.state pl st.rng).player
    (selLoop sq lg cE vb 43 st.tree st.state pl st.rng).rng hselc
  simp only [simulateOnce, hroll, hsel]

theorem runSims_state (sq lg : ℚ → ℚ) (cE : ℚ) (vb : Bool) (pl : Char) (mx : Bool) :
    ∀ (n : Nat) (st : SimSt), st.state.Consistent →
      (runSims sq lg cE vb pl mx n st).state = st.state := by
  intro n
  induction n with
  | zero => intro st hc; rfl
  | succ k ih =>
    intro st hc
    have h1 := simulateOnce_state sq lg cE vb pl mx st hc
    have hc1 : ((simulateOnce sq lg cE vb pl mx st).state).Consistent := h1 ▸ hc
    simp only [runSims, ih _ hc1, h1]

/-! ## Apply/undo sequences (spec section on board round-trips) -/

/-- Apply a sequence of `(column, player)` moves, failing if any is rejected. -/
def applySeq : ConnectFour → List (Nat × Char) → Option ConnectFour
  | s, [] => some s
  | s, mv :: rest =>
      let r := s.make_move mv.1 mv.2
      if r.2 then applySeq r.1 rest else none

/-- Undo a sequence of columns in the given order. -/
def undoSeq (s : ConnectFour) (cols : List Nat) : ConnectFour :=
  cols.foldl ConnectFour.undo_move s

theorem undo_make_core (s : ConnectFour) (m : Nat) (p : Char)
    (hs : (s.make_move m p).2 = true) (lm : Option (Nat × Nat)) :
    ConnectFour.undo_move ⟨((s.make_move m p).1).board, lm, ((s.make_move m p).1).move_stack⟩ m
      = ⟨s.board, s.move_stack.head?, s.move_stack⟩ := by
  cases hf : (List.range 6).find? (fun r => getCell s.board r (m - 1) == 'O') with
  | none => simp [ConnectFour.make_move, hf] at hs
  | some r =>
    have hcell : getCell s.board r (m - 1) = 'O' := by
      simpa using List.find?_some hf
    simp [ConnectFour.make_move, hf, ConnectFour.undo_move, setCell_cancel _ _ _ _ hcell]

theorem applySeq_undo (ms : List (Nat × Char)) :
    ∀ (s s' : ConnectFour), applySeq s ms = some s' →
      ∃ lm, undoSeq s' (ms.map Prod.fst).reverse = ⟨s.board, lm, s.move_stack⟩ := by
  induction ms with
  | nil =>
    intro s s' h
    simp only [applySeq, Option.some.injEq] at h
    subst h
    exact ⟨s.last_move, by cases s; rfl⟩
  | cons mv rest ih =>
    intro s s' h
    simp only [applySeq] at h
    by_cases hr : (s.make_move mv.1 mv.2).2 = true
    · rw [if_pos hr] at h
      obtain ⟨lm, hlm⟩ := ih _ _ h
      refine ⟨s.move_stack.head?, ?_⟩
      simp only [List.map_cons, List.reverse_cons, undoSeq, List.foldl_append,
        List.foldl_cons, List.foldl_nil]
      rw [show List.foldl ConnectFour.undo_move s' (List.map Prod.fst rest).reverse
            = undoSeq s' (rest.map Prod.fst).reverse from rfl, hlm]
      exact undo_make_core s mv.1 mv.2 hr lm
    · rw [if_neg hr] at h
      exact absurd h (by simp)

/-! ## Concrete boards used by witnesses and counterexamples -/

def rowOf (s : String) : List Char := s.toList

/-- A full drawn position with no four-in-a-row anywhere. -/
def drawGrid : Grid :=
  [rowOf "RYRYRYR", rowOf "RYRYRYR", rowOf "YRYRYRY", rowOf "YRYRYRY",
   rowOf "RYRYRYR", rowOf "RYRYRYR"]

/-- `drawGrid` with the tops of columns 1 and 2 removed: a quiet, nearly full
position whose legal moves are exactly `[1, 2]`. -/
def twoColGrid : Grid :=
  [rowOf "RYRYRYR", rowOf "RYRYRYR", rowOf "YRYRYRY", rowOf "YRYRYRY",
   rowOf "RYRYRYR", rowOf "OORYRYR"]

def twoColBoard : ConnectFour := ⟨twoColGrid, some (4, 0), [(4, 0)]⟩

/-- The empty starting position. -/
def emptyBoard : ConnectFour :=
  ⟨[rowOf "OOOOOOO", rowOf "OOOOOOO", rowOf "OOOOOOO", rowOf "OOOOOOO",
    rowOf "OOOOOOO", rowOf "OOOOOOO"], none, []⟩

/-! ## C3: apply-then-undo restores the grid and the legal moves -/

/-- C3: for every board state and every sequence of successful `make_move`
calls followed by `undo_move` calls on the same columns in exactly reverse
order, the cell grid and the result of `get_legal_moves` are identical to
their values before the sequence.  (Columns are the 1-indexed columns this
engine uses; Python's negative-index wraparound for column 0 is outside the
interface.) -/
theorem c3_apply_undo_roundtrip (s : ConnectFour) (ms : List (Nat × Char)) (s' : ConnectFour)
    (_hcols : ∀ mv ∈ ms, 1 ≤ mv.1) (h : applySeq s ms = some s') :
    (undoSeq s' (ms.map Prod.fst).reverse).board = s.board
    ∧ (undoSeq s' (ms.map Prod.fst).reverse).get_legal_moves = s.get_legal_moves := by
  obtain ⟨lm, hlm⟩ := applySeq_undo ms s s' h
  rw [hlm]
  exact ⟨rfl, rfl⟩

/-- Witness for C3: play columns 4, 4, 1 on the empty board, undo 1, 4, 4. -/
theorem c3_apply_undo_roundtrip_witness :
    (∀ mv ∈ [((4 : Nat), 'Y'), (4, 'R'), (1, 'Y')], 1 ≤ mv.1)
    ∧ (applySeq emptyBoard [(4, 'Y'), (4, 'R'), (1, 'Y')]).isSome = true
    ∧ ∀ s', applySeq emptyBoard [(4, 'Y'), (4, 'R'), (1, 'Y')] = some s' →
        (undoSeq s' [1, 4, 4]).board = emptyBoard.board
        ∧ (undoSeq s' [1, 4, 4]).get_legal_moves = emptyBoard.get_legal_moves := by
  refine ⟨by decide, by decide, fun s' hs' => ?_⟩
  exact c3_apply_undo_roundtrip emptyBoard [(4, 'Y'), (4, 'R'), (1, 'Y')] s' (by decide) hs'

/-! ## C4: a full `select_move` call leaves the shared board untouched -/

/-- C4: for every starting board (with the marker/stack invariant every
constructor-reachable board satisfies), player, simulation count, reporting
flags and random draws, `UCT.select_move` returns the shared board object in
exactly the state it had before the call. -/
theorem c4_select_move_preserves_board (sq lg : ℚ → ℚ) (cE : ℚ) (vb bf sup : Bool)
    (game : ConnectFour) (p : Char) (n : Nat) (rng : List Nat)
    (hc : game.Consistent) :
    (select_move sq lg cE vb bf sup game p n rng).state = game := by
  simp only [select_move]
  exact runSims_state sq lg cE vb p (p == 'Y') n ⟨MCTSTree.node 0 0 [], game, rng, []⟩ hc

/-- Witness for C4: a one-simulation UCT run on a concrete position. -/
theorem c4_select_move_preserves_board_witness :
    twoColBoard.Consistent
    ∧ (select_move id id 0 false false false twoColBoard 'Y' 1 [1, 0]).state = twoColBoard :=
  ⟨by decide,
    c4_select_move_preserves_board id id 0 false false false twoColBoard 'Y' 1 [1, 0]
      (by decide)⟩

/-! ## C1: what backpropagation does to the root -/

theorem clampOutcome_of_bounds (v : Int) (h1 : -1 ≤ v) (h2 : v ≤ 1) : clampOutcome v = v := by
  simp only [clampOutcome]
  rw [min_eq_right h2, max_eq_right h1]

theorem backprop_go_wi (isMaxP : Bool) (v : Int) (path : List Nat) (t : MCTSTree) :
    (backprop_go isMaxP v path t).wi
      = (if ((path.length % 2 == 0) == isMaxP) then t.wi + v else t.wi - v) := by
  cases t with
  | node w n ch => cases path <;> simp [backprop_go, MCTSTree.wi]

theorem backprop_go_ni (isMaxP : Bool) (v : Int) (path : List Nat) (t : MCTSTree) :
    (backprop_go isMaxP v path t).ni = t.ni + 1 := by
  cases t with
  | node w n ch => cases path <;> simp [backprop_go, MCTSTree.ni]

/-- C1 (amended): for every terminal outcome in `[-1, 1]` the root's `N`
does become its prior `N` plus 1; but the sign of the root's `W`-change is
governed by the parity of the leaf's depth (the backpropagation loop counts
depth from the **leaf**, not from the root): `W` gains the outcome exactly
when the leaf depth is even and the deciding player is maximizing, or the
leaf depth is odd and the deciding player is minimizing; otherwise `W`
loses the outcome.  The original claim holds only for even leaf depths. -/
theorem c1_backprop_root_update (isMaxP : Bool) (t : MCTSTree) (path : List Nat) (v : Int)
    (h1 : -1 ≤ v) (h2 : v ≤ 1) :
    (backpropagate isMaxP t path v).ni = t.ni + 1
    ∧ ((path.length % 2 = 0 ↔ isMaxP = true) →
        (backpropagate isMaxP t path v).wi = t.wi + v)
    ∧ (¬(path.length % 2 = 0 ↔ isMaxP = true) →
        (backpropagate isMaxP t path v).wi = t.wi - v) := by
  have hv : clampOutcome v = v := clampOutcome_of_bounds v h1 h2
  unfold backpropagate
  rw [hv]
  refine ⟨backprop_go_ni isMaxP v path t, fun hpar => ?_, fun hpar => ?_⟩
  · rw [backprop_go_wi]
    have : ((path.length % 2 == 0) == isMaxP) = true := by
      cases isMaxP <;> simp_all
    rw [if_pos this]
  · rw [backprop_go_wi]
    have : ((path.length % 2 == 0) == isMaxP) = false := by
      cases isMaxP <;> simp_all [Nat.mod_two_ne_zero]
    rw [this]
    simp

/-- Witness for C1: a leaf two levels below the root, maximizing player,
outcome +1: the root gains +1 (even leaf depth). -/
theorem c1_backprop_root_update_witness :
    (-1 ≤ (1 : Int) ∧ (1 : Int) ≤ 1)
    ∧ (backpropagate true
        (MCTSTree.node 3 5 [(2, MCTSTree.node 0 1 [(4, MCTSTree.node 0 0 [])])])
        [2, 4] 1).ni = 5 + 1
    ∧ (([2, 4].length % 2 = 0 ↔ (true : Bool) = true) →
        (backpropagate true
          (MCTSTree.node 3 5 [(2, MCTSTree.node 0 1 [(4, MCTSTree.node 0 0 [])])])
          [2, 4] 1).wi = 3 + 1) :=
  ⟨⟨by decide, by decide⟩,
    (c1_backprop_root_update true _ [2, 4] 1 (by decide) (by decide)).1,
    (c1_backprop_root_update true _ [2, 4] 1 (by decide) (by decide)).2.1⟩

/-- Counterexample to C1 as stated: maximizing player ('Y'), terminal outcome
+1, leaf at depth 1 (the root's own child): the root's `N` goes from 0 to 1
as claimed, but its `W` goes from 0 to `-1` — it *decreases* by the outcome
although the deciding player is the maximizing player. -/
theorem c1_backprop_root_sign_cex :
    (backpropagate true (MCTSTree.node 0 0 [(1, MCTSTree.node 0 0 [])]) [1] 1).ni = 0 + 1
    ∧ (backpropagate true (MCTSTree.node 0 0 [(1, MCTSTree.node 0 0 [])]) [1] 1).wi = -1
    ∧ ((-1 : Int) ≠ 0 + 1) := by decide

/-! ## C7: the UCB score case analysis -/

/-- C7: `get_ucb_value` returns +inf for an unvisited node when the mover is
maximizing and -inf when minimizing; for a visited node with absent or
unvisited parent it returns the plain `get_value`; otherwise it returns
`value ± c * sqrt(ln(parent.N) / N)` with `+` for the maximizing mover and
`-` for the minimizing one. -/
theorem c7_ucb_cases (sq lg : ℚ → ℚ) (cE : ℚ) (isMax : Bool) (t : MCTSTree)
    (pni : Option Nat) :
    (t.ni = 0 →
      get_ucb_value sq lg t pni cE isMax = (if isMax then XQ.posInf else XQ.negInf))
    ∧ (t.ni ≠ 0 → (pni = none ∨ pni = some 0) →
      get_ucb_value sq lg t pni cE isMax = XQ.fin t.get_value)
    ∧ (t.ni ≠ 0 → ∀ k, pni = some k → k ≠ 0 →
      get_ucb_value sq lg t pni cE isMax
        = XQ.fin (if isMax then t.get_value + cE * sq (lg (k : ℚ) / (t.ni : ℚ))
                  else t.get_value - cE * sq (lg (k : ℚ) / (t.ni : ℚ)))) := by
  refine ⟨fun h0 => ?_, fun h0 hp => ?_, fun h0 k hk hk0 => ?_⟩
  · simp [get_ucb_value, h0]
  · rcases hp with rfl | rfl
    · simp [get_ucb_value, h0]
    · simp [get_ucb_value, h0]
  · subst hk
    simp [get_ucb_value, h0, hk0]

/-- Witness for C7: concrete nodes hitting the unvisited case and the
full exploration-bonus case. -/
theorem c7_ucb_cases_witness :
    get_ucb_value id id (MCTSTree.node 0 0 []) (some 3) 1 true = XQ.posInf
    ∧ get_ucb_value id id (MCTSTree.node 1 2 []) (some 4) 1 true
        = XQ.fin ((MCTSTree.node 1 2 []).get_value
            + 1 * id (id ((4 : Nat) : ℚ) / (((2 : Nat) : Nat) : ℚ))) := by
  constructor
  · have h := (c7_ucb_cases id id 1 true (MCTSTree.node 0 0 []) (some 3)).1 (by decide)
    simpa using h
  · have h := (c7_ucb_cases id id 1 true (MCTSTree.node 1 2 []) (some 4)).2.2
      (by decide) 4 rfl (by decide)
    simpa [MCTSTree.ni] using h

/-! ## C10: the `|W| ≤ N` invariant and the clamp in `get_value` -/

/-- Statistics of the node reached from `t` along `path` (if it exists). -/
def statsAt : MCTSTree → List Nat → Option (Int × Nat)
  | t, [] => some (t.wi, t.ni)
  | t, m :: rest =>
      match lookupChild t.children m with
      | some c => statsAt c rest
      | none => none

/-- Every node of the tree satisfies `|wi| ≤ ni`. -/
def InvW (t : MCTSTree) : Prop :=
  ∀ path w n, statsAt t path = some (w, n) → w.natAbs ≤ n

theorem lookupChild_updateChild (m : Nat) (f : MCTSTree → MCTSTree) :
    ∀ (ch : List (Nat × MCTSTree)) (k : Nat),
      lookupChild (updateChild ch m f) k
        = if k = m then (lookupChild ch k).map f else lookupChild ch k := by
  intro ch
  induction ch with
  | nil => intro k; by_cases hk : k = m <;> simp [updateChild, lookupChild, hk]
  | cons q rest ih =>
    intro k
    simp only [updateChild, List.map_cons]
    rw [show List.map (fun q => if q.1 = m then (q.1, f q.2) else q) rest
          = updateChild rest m f from rfl]
    by_cases hqk : q.1 = k
    · by_cases hk : k = m
      · have hq : q.1 = m := by rw [hqk, hk]
        simp [lookupChild, hq, hqk, hk]
      · have hq : ¬q.1 = m := by rw [hqk]; exact hk
        simp [lookupChild, hq, hqk, hk]
    · by_cases hq : q.1 = m
      · have hmk : ¬m = k := by rw [← hq]; exact hqk
        have hkm : ¬k = m := fun h => hmk h.symm
        simp [lookupChild, hq, hqk, hmk, hkm, ih]
      · simp [lookupChild, hq, hqk, ih]

theorem statsAt_backprop_go (isMaxP : Bool) (v : Int) :
    ∀ (path : List Nat) (t : MCTSTree) (q : List Nat) (w : Int) (n : Nat),
      statsAt (backprop_go isMaxP v path t) q = some (w, n) →
      statsAt t q = some (w, n)
      ∨ ∃ w0 n0, statsAt t q = some (w0, n0) ∧ n = n0 + 1 ∧ (w = w0 + v ∨ w = w0 - v) := by
  intro path
  induction path with
  | nil =>
    intro t q w n h
    cases t with
    | node w0 n0 ch =>
      cases q with
      | nil =>
        right
        simp only [backprop_go, statsAt, MCTSTree.wi, MCTSTree.ni, Option.some.injEq,
          Prod.mk.injEq] at h
        refine ⟨w0, n0, rfl, h.2.symm, ?_⟩
        split at h
        · exact Or.inl h.1.symm
        · exact Or.inr h.1.symm
      | cons k qr =>
        left
        simpa [backprop_go, statsAt, MCTSTree.children] using h
  | cons m rest ih =>
    intro t q w n h
    cases t with
    | node w0 n0 ch =>
      cases q with
      | nil =>
        right
        simp only [backprop_go, statsAt, MCTSTree.wi, MCTSTree.ni, Option.some.injEq,
          Prod.mk.injEq] at h
        refine ⟨w0, n0, rfl, h.2.symm, ?_⟩
        split at h
        · exact Or.inl h.1.symm
        · exact Or.inr h.1.symm
      | cons k qr =>
        simp only [backprop_go, statsAt, MCTSTree.children,
          lookupChild_updateChild] at h
        by_cases hkm : k = m
        · rw [if_pos hkm] at h
          cases hl : lookupChild ch k with
          | none => rw [hl] at h; simp at h
          | some c =>
            rw [hl] at h
            simp only [Option.map_some'] at h
            rcases ih c qr w n h with h' | ⟨w0', n0', h1, h2, h3⟩
            · left; simpa [statsAt, MCTSTree.children, hl] using h'
            · right
              exact ⟨w0', n0', by simpa [statsAt, MCTSTree.children, hl] using h1, h2, h3⟩
        · rw [if_neg hkm] at h
          left
          simpa [statsAt, MCTSTree.children] using h

theorem clampOutcome_natAbs (v : Int) : (clampOutcome v).natAbs ≤ 1 := by
  simp only [clampOutcome, max_def, min_def]
  split <;> split <;> omega

/-- C10: backpropagation preserves the invariant that every node has
`|wi| ≤ ni` (the outcome is clamped to `[-1, 1]` and each visited node gets
`ni + 1` and `wi ± outcome`); a fresh node satisfies it; and on any node
satisfying it the clamp inside `get_value` is the identity: the returned
value is exactly `wi / ni`, already in `[-1, 1]`. -/
theorem c10_invariant :
    (∀ (isMaxP : Bool) (t : MCTSTree) (path : List Nat) (v : Int),
        InvW t → InvW (backpropagate isMaxP t path v))
    ∧ InvW (MCTSTree.node 0 0 [])
    ∧ (∀ t : MCTSTree, InvW t → t.ni ≠ 0 →
        t.get_value = (t.wi : ℚ) / (t.ni : ℚ)
        ∧ -1 ≤ t.get_value ∧ t.get_value ≤ 1) := by
  refine ⟨?_, ?_, ?_⟩
  · intro isMaxP t path v hinv q w n h
    rcases statsAt_backprop_go isMaxP (clampOutcome v) path t q w n h with h' | ⟨w0, n0, h1, h2, h3⟩
    · exact hinv q w n h'
    · have hb := hinv q w0 n0 h1
      have hcl := clampOutcome_natAbs v
      rcases h3 with rfl | rfl <;> omega
  · intro q w n h
    cases q with
    | nil =>
      simp only [statsAt, MCTSTree.wi, MCTSTree.ni, Option.some.injEq, Prod.mk.injEq] at h
      omega
    | cons k qr => simp [statsAt, MCTSTree.children, lookupChild] at h
  · intro t hinv hn
    have hb := hinv [] t.wi t.ni (by simp [statsAt])
    have hnpos : (0 : ℚ) < (t.ni : ℚ) := by
      exact_mod_cast Nat.pos_of_ne_zero hn
    have hle : (t.wi : ℚ) ≤ (t.ni : ℚ) := by
      have : (t.wi : Int) ≤ (t.ni : Int) := by omega
      exact_mod_cast this
    have hge : -(t.ni : ℚ) ≤ (t.wi : ℚ) := by
      have : -(t.ni : Int) ≤ (t.wi : Int) := by omega
      exact_mod_cast this
    have h1 : (t.wi : ℚ) / (t.ni : ℚ) ≤ 1 := (div_le_one hnpos).mpr hle
    have h2 : -1 ≤ (t.wi : ℚ) / (t.ni : ℚ) := by
      rw [neg_le, ← neg_div]
      exact (div_le_one hnpos).mpr (by linarith)
    have hval : t.get_value = (t.wi : ℚ) / (t.ni : ℚ) := by
      simp only [MCTSTree.get_value, if_neg hn]
      rw [min_eq_right h1, max_eq_right h2]
    exact ⟨hval, by rw [hval]; exact h2, by rw [hval]; exact h1⟩

/-- Witness for C10: a concrete tree and backpropagation call. -/
theorem c10_invariant_witness :
    InvW (backpropagate true (MCTSTree.node 0 0 []) [] 5)
    ∧ ((MCTSTree.node 1 2 []).get_value = ((1 : Int) : ℚ) / ((2 : Nat) : ℚ)
        ∧ -1 ≤ (MCTSTree.node 1 2 []).get_value ∧ (MCTSTree.node 1 2 []).get_value ≤ 1) := by
  constructor
  · exact c10_invariant.1 true (MCTSTree.node 0 0 []) [] 5 c10_invariant.2.1
  · refine c10_invariant.2.2 (MCTSTree.node 1 2 []) ?_ (by decide)
    intro q w n h
    cases q with
    | nil =>
      simp only [statsAt, MCTSTree.wi, MCTSTree.ni, Option.some.injEq, Prod.mk.injEq] at h
      omega
    | cons k qr => simp [statsAt, MCTSTree.children, lookupChild] at h

/-! ## The final decision pass: first-seen extreme value -/

theorem foldMax_from (f : Nat → ℚ) :
    ∀ (xs : List Nat) (r : Nat),
      (xs.foldl (decisionStep true f) (some r, XQ.fin (f r)) = (some r, XQ.fin (f r))
        ∧ ∀ x ∈ xs, f x ≤ f r)
      ∨ ∃ l1 rr l2, xs = l1 ++ rr :: l2
          ∧ xs.foldl (decisionStep true f) (some r, XQ.fin (f r)) = (some rr, XQ.fin (f rr))
          ∧ f r < f rr ∧ (∀ x ∈ l1, f x < f rr) ∧ (∀ x ∈ l2, f x ≤ f rr) := by
  intro xs
  induction xs with
  | nil => intro r; exact Or.inl ⟨rfl, by simp⟩
  | cons x xs ih =>
    intro r
    by_cases hlt : f r < f x
    · have hstep : decisionStep true f (some r, XQ.fin (f r)) x = (some x, XQ.fin (f x)) := by
        simp [decisionStep, XQ.ltB, hlt]
      rcases ih x with ⟨heq, hall⟩ | ⟨l1, rr, l2, hxs, heq, hlt2, h1, h2⟩
      · right
        refine ⟨[], x, xs, by simp, ?_, hlt, by simp, hall⟩
        rw [List.foldl_cons, hstep, heq]
      · right
        refine ⟨x :: l1, rr, l2, by simp [hxs], ?_, lt_trans hlt hlt2, ?_, h2⟩
        · rw [List.foldl_cons, hstep, heq]
        · intro y hy
          rcases List.mem_cons.mp hy with rfl | hy'
          · exact hlt2
          · exact h1 y hy'
    · have hstep : decisionStep true f (some r, XQ.fin (f r)) x = (some r, XQ.fin (f r)) := by
        simp [decisionStep, XQ.ltB, hlt]
      rcases ih r with ⟨heq, hall⟩ | ⟨l1, rr, l2, hxs, heq, hlt2, h1, h2⟩
      · left
        refine ⟨by rw [List.foldl_cons, hstep, heq], ?_⟩
        intro y hy
        rcases List.mem_cons.mp hy with rfl | hy'
        · exact le_of_not_lt hlt
        · exact hall y hy'
      · right
        refine ⟨x :: l1, rr, l2, by simp [hxs], ?_, hlt2, ?_, h2⟩
        · rw [List.foldl_cons, hstep, heq]
        · intro y hy
          rcases List.mem_cons.mp hy with rfl | hy'
          · exact lt_of_le_of_lt (le_of_not_lt hlt) hlt2
          · exact h1 y hy'

theorem foldMin_from (f : Nat → ℚ) :
    ∀ (xs : List Nat) (r : Nat),
      (xs.foldl (decisionStep false f) (some r, XQ.fin (f r)) = (some r, XQ.fin (f r))
        ∧ ∀ x ∈ xs, f r ≤ f x)
      ∨ ∃ l1 rr l2, xs = l1 ++ rr :: l2
          ∧ xs.foldl (decisionStep false f) (some r, XQ.fin (f r)) = (some rr, XQ.fin (f rr))
          ∧ f rr < f r ∧ (∀ x ∈ l1, f rr < f x) ∧ (∀ x ∈ l2, f rr ≤ f x) := by
  intro xs
  induction xs with
  | nil => intro r; exact Or.inl ⟨rfl, by simp⟩
  | cons x xs ih =>
    intro r
    by_cases hlt : f x < f r
    · have hstep : decisionStep false f (some r, XQ.fin (f r)) x = (some x, XQ.fin (f x)) := by
        simp [decisionStep, XQ.ltB, hlt]
      rcases ih x with ⟨heq, hall⟩ | ⟨l1, rr, l2, hxs, heq, hlt2, h1, h2⟩
      · right
        refine ⟨[], x, xs, by simp, ?_, hlt, by simp, hall⟩
        rw [List.foldl_cons, hstep, heq]
      · right
        refine ⟨x :: l1, rr, l2, by simp [hxs], ?_, lt_trans hlt2 hlt, ?_, h2⟩
        · rw [List.foldl_cons, hstep, heq]
        · intro y hy
          rcases List.mem_cons.mp hy with rfl | hy'
          · exact hlt2
          · exact h1 y hy'
    · have hstep : decisionStep false f (some r, XQ.fin (f r)) x = (some r, XQ.fin (f r)) := by
        simp [decisionStep, XQ.ltB, hlt]
      rcases ih r with ⟨heq, hall⟩ | ⟨l1, rr, l2, hxs, heq, hlt2, h1, h2⟩
      · left
        refine ⟨by rw [List.foldl_cons, hstep, heq], ?_⟩
        intro y hy
        rcases List.mem_cons.mp hy with rfl | hy'
        · exact le_of_not_lt hlt
        · exact hall y hy'
      · right
        refine ⟨x :: l1, rr, l2, by simp [hxs], ?_, hlt2, ?_, h2⟩
        · rw [List.foldl_cons, hstep, heq]
        · intro y hy
          rcases List.mem_cons.mp hy with rfl | hy'
          · exact lt_of_lt_of_le hlt2 (le_of_not_lt hlt)
          · exact h1 y hy'

/-- The decision pass returns the first legal move attaining the maximum
value (maximizing case). -/
theorem decisionFold_max_char (f : Nat → ℚ) (legal : List Nat) (hne : legal ≠ []) :
    ∃ l1 r l2, legal = l1 ++ r :: l2
      ∧ decisionFold true legal f = (some r, XQ.fin (f r))
      ∧ (∀ x ∈ l1, f x < f r) ∧ (∀ x ∈ l2, f x ≤ f r) := by
  cases legal with
  | nil => exact absurd rfl hne
  | cons x xs =>
    have hstep : decisionStep true f (none, XQ.negInf) x = (some x, XQ.fin (f x)) := by
      simp [decisionStep, XQ.ltB]
    rcases foldMax_from f xs x with ⟨heq, hall⟩ | ⟨l1, rr, l2, hxs, heq, hlt2, h1, h2⟩
    · refine ⟨[], x, xs, by simp, ?_, by simp, hall⟩
      rw [show decisionFold true (x :: xs) f
            = List.foldl (decisionStep true f) (decisionStep true f (none, XQ.negInf) x) xs
          from rfl, hstep, heq]
    · refine ⟨x :: l1, rr, l2, by simp [hxs], ?_, ?_, h2⟩
      · rw [show decisionFold true (x :: xs) f
            = List.foldl (decisionStep true f) (decisionStep true f (none, XQ.negInf) x) xs
          from rfl, hstep, heq]
      · intro y hy
        rcases List.mem_cons.mp hy with rfl | hy'
        · exact hlt2
        · exact h1 y hy'

/-- The decision pass returns the first legal move attaining the minimum
value (minimizing case). -/
theorem decisionFold_min_char (f : Nat → ℚ) (legal : List Nat) (hne : legal ≠ []) :
    ∃ l1 r l2, legal = l1 ++ r :: l2
      ∧ decisionFold false legal f = (some r, XQ.fin (f r))
      ∧ (∀ x ∈ l1, f r < f x) ∧ (∀ x ∈ l2, f r ≤ f x) := by
  cases legal with
  | nil => exact absurd rfl hne
  | cons x xs =>
    have hstep : decisionStep false f (none, XQ.posInf) x = (some x, XQ.fin (f x)) := by
      simp [decisionStep, XQ.ltB]
    rcases foldMin_from f xs x with ⟨heq, hall⟩ | ⟨l1, rr, l2, hxs, heq, hlt2, h1, h2⟩
    · refine ⟨[], x, xs, by simp, ?_, by simp, hall⟩
      rw [show decisionFold false (x :: xs) f
            = List.foldl (decisionStep false f) (decisionStep false f (none, XQ.posInf) x) xs
          from rfl, hstep, heq]
    · refine ⟨x :: l1, rr, l2, by simp [hxs], ?_, ?_, h2⟩
      · rw [show decisionFold false (x :: xs) f
            = List.foldl (decisionStep false f) (decisionStep false f (none, XQ.posInf) x) xs
          from rfl, hstep, heq]
      · intro y hy
        rcases List.mem_cons.mp hy with rfl | hy'
        · exact hlt2
        · exact h1 y hy'

theorem legal_sorted (s : ConnectFour) : List.Sorted (· < ·) s.get_legal_moves := by
  unfold ConnectFour.get_legal_moves
  refine List.Pairwise.map (fun c => c + 1) (fun a b h => Nat.succ_lt_succ h) ?_
  exact List.Pairwise.filter _ (List.pairwise_lt_range 7)

/-- C8: the final move decision examines the legal root moves in ascending
column order, scores each by the child's plain average value (`moveValue`,
which is `get_value` for an existing child and 0 for a legal move without
one), and returns the first move attaining the maximum (deciding player 'Y')
or minimum (otherwise): every earlier legal move scores strictly worse and
every later one scores no better. -/
theorem c8_final_decision (ch : List (Nat × MCTSTree)) (s : ConnectFour) (isMaxP : Bool)
    (hne : s.get_legal_moves ≠ []) :
    List.Sorted (· < ·) s.get_legal_moves
    ∧ ∃ l1 r l2, s.get_legal_moves = l1 ++ r :: l2
        ∧ (decisionFold isMaxP s.get_legal_moves (moveValue ch)).1 = some r
        ∧ (∀ x ∈ l1, if isMaxP then moveValue ch x < moveValue ch r
                      else moveValue ch r < moveValue ch x)
        ∧ (∀ x ∈ l2, if isMaxP then moveValue ch x ≤ moveValue ch r
                      else moveValue ch r ≤ moveValue ch x) := by
  refine ⟨legal_sorted s, ?_⟩
  cases isMaxP with
  | false =>
    obtain ⟨l1, r, l2, h1, h2, h3, h4⟩ := decisionFold_min_char (moveValue ch) _ hne
    exact ⟨l1, r, l2, h1, by rw [h2], by simpa using h3, by simpa using h4⟩
  | true =>
    obtain ⟨l1, r, l2, h1, h2, h3, h4⟩ := decisionFold_max_char (moveValue ch) _ hne
    exact ⟨l1, r, l2, h1, by rw [h2], by simpa using h3, by simpa using h4⟩

/-- Witness for C8: the two-column position with a single explored child. -/
theorem c8_final_decision_witness :
    twoColBoard.get_legal_moves ≠ []
    ∧ (List.Sorted (· < ·) twoColBoard.get_legal_moves
      ∧ ∃ l1 r l2, twoColBoard.get_legal_moves = l1 ++ r :: l2
          ∧ (decisionFold true twoColBoard.get_legal_moves
              (moveValue [(2, MCTSTree.node 1 1 [])])).1 = some r
          ∧ (∀ x ∈ l1, if true then moveValue [(2, MCTSTree.node 1 1 [])] x
                  < moveValue [(2, MCTSTree.node 1 1 [])] r
                else moveValue [(2, MCTSTree.node 1 1 [])] r
                  < moveValue [(2, MCTSTree.node 1 1 [])] x)
          ∧ (∀ x ∈ l2, if true then moveValue [(2, MCTSTree.node 1 1 [])] x
                  ≤ moveValue [(2, MCTSTree.node 1 1 [])] r
                else moveValue [(2, MCTSTree.node 1 1 [])] r
                  ≤ moveValue [(2, MCTSTree.node 1 1 [])] x)) :=
  ⟨by decide, c8_final_decision [(2, MCTSTree.node 1 1 [])] twoColBoard true (by decide)⟩

/-! ## C2: one simulation from a fresh root -/

theorem nonterminal_legal_ne (s : ConnectFour)
    (h : s.is_terminal = (false, none)) : s.get_legal_moves ≠ [] := by
  intro hnil
  have hlen : s.get_legal_moves.length = 0 := by simp [hnil]
  unfold ConnectFour.is_terminal at h
  cases hl : s.last_move with
  | some rc =>
      rw [hl] at h
      cases hw : s._check_win rc.1 rc.2 with
      | some w => simp [hw, hlen] at h
      | none => simp [hw, hlen] at h
  | none =>
      rw [hl] at h
      cases hw : s._check_board_for_win with
      | some w => simp [hw, hlen] at h
      | none => simp [hw, hlen] at h

/-- Unfolding of the selection loop at a fresh (childless, unvisited) root on
a non-terminal position: it expands one random unexplored move and stops. -/
theorem selLoop_expand_root (sq lg : ℚ → ℚ) (cE : ℚ) (vb : Bool) (fuel : Nat)
    (s : ConnectFour) (p : Char) (rng : List Nat)
    (hne : s.get_legal_moves ≠ []) (hterm : s.is_terminal = (false, none)) :
    selLoop sq lg cE vb (fuel + 1) (MCTSTree.node 0 0 []) s p rng
      = ⟨[choiceNat s.get_legal_moves (rngNext rng).1],
         MCTSTree.node 0 0 [(choiceNat s.get_legal_moves (rngNext rng).1, MCTSTree.node 0 0 [])],
         (s.make_move (choiceNat s.get_legal_moves (rngNext rng).1) p).1,
         (if p == 'Y' then 'R' else 'Y'),
         (rngNext rng).2,
         if vb then [Out.wiLine 0, Out.niLine 0,
            Out.moveSel (choiceNat s.get_legal_moves (rngNext rng).1), Out.nodeAdded]
         else []⟩ := by
  obtain ⟨u, us, hlegal⟩ : ∃ u us, s.get_legal_moves = u :: us := by
    cases h : s.get_legal_moves with
    | nil => exact absurd h hne
    | cons u us => exact ⟨u, us, rfl⟩
  have hfilter : (s.get_legal_moves).filter
      (fun m => (lookupChild (MCTSTree.node 0 0 []).children m).isNone) = s.get_legal_moves :=
    List.filter_eq_self.mpr (fun a _ => rfl)
  have hlen : ¬((s.get_legal_moves).length = 0) := by simp [hlegal]
  have hfe : ¬((MCTSTree.node 0 0 []).is_fully_expanded s.get_legal_moves = true) := by
    simp [MCTSTree.is_fully_expanded, MCTSTree.children, hlegal]
  simp only [selLoop]
  rw [if_neg hlen, hterm]
  rw [if_neg (show ¬((false, (none : Option Int)).1 = true) by simp)]
  rw [if_neg hfe, hfilter, hlegal]
  simp [MCTSTree.wi, MCTSTree.ni, MCTSTree.children]

theorem clampOutcome_le_one (v : Int) : clampOutcome v ≤ 1 := by
  simp only [clampOutcome]
  exact max_le (by omega) (min_le_left 1 v)

theorem neg_one_le_clampOutcome (v : Int) : -1 ≤ clampOutcome v := le_max_left (-1) _

theorem get_value_single (w : Int) (h1 : -1 ≤ w) (h2 : w ≤ 1) :
    (MCTSTree.node w 1 []).get_value = (w : ℚ) := by
  simp only [MCTSTree.get_value, MCTSTree.ni, MCTSTree.wi, Nat.cast_one, one_ne_zero,
    if_false, div_one]
  rw [min_eq_right (by exact_mod_cast h2), max_eq_right (by exact_mod_cast h1)]

theorem moveValue_hit (m : Nat) (c : MCTSTree) :
    moveValue [(m, c)] m = c.get_value := by
  simp [moveValue, lookupChild]

theorem moveValue_miss (m x : Nat) (c : MCTSTree) (h : x ≠ m) :
    moveValue [(m, c)] x = 0 := by
  have hmx : ¬(m = x) := fun hh => h hh.symm
  simp [moveValue, lookupChild, hmx]

theorem backprop_single (isMax : Bool) (m : Nat) (v : Int) :
    backpropagate isMax (MCTSTree.node 0 0 [(m, MCTSTree.node 0 0 [])]) [m] v
      = MCTSTree.node (if isMax then -(clampOutcome v) else clampOutcome v) 1
          [(m, MCTSTree.node (if isMax then clampOutcome v else -(clampOutcome v)) 1 [])] := by
  cases isMax <;>
    simp [backpropagate, backprop_go, updateChild, List.length_cons, sub_eq_neg_add,
      zero_sub, zero_add]

theorem decision_dominant_max (f : Nat → ℚ) (legal : List Nat) (m : Nat)
    (hm : m ∈ legal) (h0 : ∀ x ∈ legal, x ≠ m → f x = 0) (hpos : 0 < f m) :
    (decisionFold true legal f).1 = some m := by
  obtain ⟨l1, r, l2, hsplit, heq, h1, h2⟩ :=
    decisionFold_max_char f legal (List.ne_nil_of_mem hm)
  have hr : r ∈ legal := hsplit ▸ List.mem_append_right l1 (List.mem_cons_self r l2)
  have hrm : r = m := by
    rw [hsplit] at hm
    rcases List.mem_append.mp hm with hm1 | hm2
    · by_contra hne
      have := h1 m hm1
      rcases eq_or_ne r m with rfl | hrm'
      · exact absurd rfl hne
      · rw [h0 r hr hrm'] at this; linarith
    · rcases List.mem_cons.mp hm2 with rfl | hm3
      · rfl
      · by_contra hne
        have := h2 m hm3
        have hrm' : r ≠ m := fun hh => hne hh
        rw [h0 r hr hrm'] at this; linarith
  rw [heq, hrm]

theorem decision_dominant_min (f : Nat → ℚ) (legal : List Nat) (m : Nat)
    (hm : m ∈ legal) (h0 : ∀ x ∈ legal, x ≠ m → f x = 0) (hneg : f m < 0) :
    (decisionFold false legal f).1 = some m := by
  obtain ⟨l1, r, l2, hsplit, heq, h1, h2⟩ :=
    decisionFold_min_char f legal (List.ne_nil_of_mem hm)
  have hr : r ∈ legal := hsplit ▸ List.mem_append_right l1 (List.mem_cons_self r l2)
  have hrm : r = m := by
    rw [hsplit] at hm
    rcases List.mem_append.mp hm with hm1 | hm2
    · by_contra hne
      have := h1 m hm1
      rcases eq_or_ne r m with rfl | hrm'
      · exact absurd rfl hne
      · rw [h0 r hr hrm'] at this; linarith
    · rcases List.mem_cons.mp hm2 with rfl | hm3
      · rfl
      · by_contra hne
        have := h2 m hm3
        have hrm' : r ≠ m := fun hh => hne hh
        rw [h0 r hr hrm'] at this; linarith
  rw [heq, hrm]

/-- Unfolding lemma (definitional): one round of the simulation loop. -/
theorem runSims_one (sq lg : ℚ → ℚ) (cE : ℚ) (vb : Bool) (p : Char) (mx : Bool)
    (st : SimSt) :
    runSims sq lg cE vb p mx 1 st = simulateOnce sq lg cE vb p mx st := rfl

/-- Unfolding lemma (definitional): the tree produced by one simulation. -/
theorem simulateOnce_tree_eq (sq lg : ℚ → ℚ) (cE : ℚ) (vb : Bool) (p : Char) (mx : Bool)
    (st : SimSt) :
    (simulateOnce sq lg cE vb p mx st).tree
      = backpropagate mx (selLoop sq lg cE vb 43 st.tree st.state p st.rng).tree
          (selLoop sq lg cE vb 43 st.tree st.state p st.rng).path
          ((((rolloutLoop 43
              (selLoop sq lg cE vb 43 st.tree st.state p st.rng).state
              (selLoop sq lg cE vb 43 st.tree st.state p st.rng).player
              (selLoop sq lg cE vb 43 st.tree st.state p st.rng).rng).2.1).is_terminal).2.getD 0) :=
  rfl

/-- Unfolding lemma (definitional): the tree returned by `select_move`. -/
theorem select_move_tree_eq (sq lg : ℚ → ℚ) (cE : ℚ) (vb bf sup : Bool)
    (game : ConnectFour) (p : Char) (n : Nat) (rng : List Nat) :
    (select_move sq lg cE vb bf sup game p n rng).tree
      = (runSims sq lg cE vb p (p == 'Y') n ⟨MCTSTree.node 0 0 [], game, rng, []⟩).tree := rfl

/-- Unfolding lemma (definitional): the move returned by `select_move` is the
final decision pass applied to the restored board's legal moves and the
root's children. -/
theorem select_move_move_eq (sq lg : ℚ → ℚ) (cE : ℚ) (vb bf sup : Bool)
    (game : ConnectFour) (p : Char) (n : Nat) (rng : List Nat) :
    (select_move sq lg cE vb bf sup game p n rng).move
      = pickBest (p == 'Y')
          ((runSims sq lg cE vb p (p == 'Y') n
            ⟨MCTSTree.node 0 0 [], game, rng, []⟩).state.get_legal_moves)
          (moveValue ((runSims sq lg cE vb p (p == 'Y') n
            ⟨MCTSTree.node 0 0 [], game, rng, []⟩).tree.children)) := rfl

theorem pickBest_some (b : Bool) (legal : List Nat) (f : Nat → ℚ) (m : Nat)
    (h : (decisionFold b legal f).1 = some m) : pickBest b legal f = m := by
  unfold pickBest
  rw [h]

/-- C2 (amended): with `num_simulations = 1` on a non-terminal position,
UCT creates exactly one new tree node — the root's single child, keyed by the
randomly expanded move — and the returned move equals that expanded move
whenever the child's backpropagated value is strictly favorable under the
final pick's comparison (positive for deciding player 'Y', negative for 'R');
when it is not (a draw or adverse single rollout), an earlier legal column of
value 0 can win the decision instead. -/
theorem c2_single_simulation (sq lg : ℚ → ℚ) (cE : ℚ) (vb bf sup : Bool)
    (s : ConnectFour) (p : Char) (rng : List Nat)
    (hc : s.Consistent) (hterm : s.is_terminal = (false, none)) :
    ∃ cw rw : Int,
      (select_move sq lg cE vb bf sup s p 1 rng).tree
        = MCTSTree.node rw 1
            [(choiceNat s.get_legal_moves (rngNext rng).1, MCTSTree.node cw 1 [])]
      ∧ ((if p == 'Y' then 0 < cw else cw < 0) →
          (select_move sq lg cE vb bf sup s p 1 rng).move
            = choiceNat s.get_legal_moves (rngNext rng).1) := by
  have hne := nonterminal_legal_ne s hterm
  generalize hmdef : choiceNat s.get_legal_moves (rngNext rng).1 = m
  have hmem : m ∈ s.get_legal_moves := hmdef ▸ choiceNat_mem _ _ hne
  have hsel : selLoop sq lg cE vb 43 (MCTSTree.node 0 0 []) s p rng
      = ⟨[m], MCTSTree.node 0 0 [(m, MCTSTree.node 0 0 [])],
         (s.make_move m p).1, (if p == 'Y' then 'R' else 'Y'), (rngNext rng).2,
         if vb then [Out.wiLine 0, Out.niLine 0, Out.moveSel m, Out.nodeAdded] else []⟩ := by
    rw [← hmdef]
    exact selLoop_expand_root sq lg cE vb 42 s p rng hne hterm
  have hsel2 : selLoop sq lg cE vb 43
        (SimSt.mk (MCTSTree.node 0 0 []) s rng []).tree
        (SimSt.mk (MCTSTree.node 0 0 []) s rng []).state p
        (SimSt.mk (MCTSTree.node 0 0 []) s rng []).rng
      = ⟨[m], MCTSTree.node 0 0 [(m, MCTSTree.node 0 0 [])],
         (s.make_move m p).1, (if p == 'Y' then 'R' else 'Y'), (rngNext rng).2,
         if vb then [Out.wiLine 0, Out.niLine 0, Out.moveSel m, Out.nodeAdded] else []⟩ := hsel
  set tv : Int := (((rolloutLoop 43 (s.make_move m p).1 (if p == 'Y' then 'R' else 'Y')
      (rngNext rng).2).2.1).is_terminal).2.getD 0 with htv
  have htreeRun : (runSims sq lg cE vb p (p == 'Y') 1
        ⟨MCTSTree.node 0 0 [], s, rng, []⟩).tree
      = MCTSTree.node (if (p == 'Y') then -(clampOutcome tv) else clampOutcome tv) 1
          [(m, MCTSTree.node
            (if (p == 'Y') then clampOutcome tv else -(clampOutcome tv)) 1 [])] := by
    rw [runSims_one, simulateOnce_tree_eq, hsel2]
    rw [backprop_single]
  have hstate : (runSims sq lg cE vb p (p == 'Y') 1
      ⟨MCTSTree.node 0 0 [], s, rng, []⟩).state = s :=
    runSims_state sq lg cE vb p (p == 'Y') 1 ⟨MCTSTree.node 0 0 [], s, rng, []⟩ hc
  have hclb := neg_one_le_clampOutcome tv
  have hcub := clampOutcome_le_one tv
  refine ⟨if (p == 'Y') then clampOutcome tv else -(clampOutcome tv),
          if (p == 'Y') then -(clampOutcome tv) else clampOutcome tv, ?_, ?_⟩
  · rw [select_move_tree_eq, htreeRun]
  · intro hcond
    have hcwb : -1 ≤ (if (p == 'Y') then clampOutcome tv else -(clampOutcome tv))
        ∧ (if (p == 'Y') then clampOutcome tv else -(clampOutcome tv)) ≤ 1 := by
      cases hpY : (p == 'Y') <;> simp only [hpY, Bool.false_eq_true, if_true, if_false] <;>
        constructor <;> omega
    have hfm : moveValue [(m, MCTSTree.node
          (if (p == 'Y') then clampOutcome tv else -(clampOutcome tv)) 1 [])] m
        = ((if (p == 'Y') then clampOutcome tv else -(clampOutcome tv) : Int) : ℚ) := by
      rw [moveValue_hit, get_value_single _ hcwb.1 hcwb.2]
    have hf0 : ∀ x ∈ s.get_legal_moves, x ≠ m →
        moveValue [(m, MCTSTree.node
          (if (p == 'Y') then clampOutcome tv else -(clampOutcome tv)) 1 [])] x = 0 :=
      fun x _ hx => moveValue_miss m x _ hx
    rw [select_move_move_eq, hstate, htreeRun]
    rw [show (MCTSTree.node (if (p == 'Y') then -(clampOutcome tv) else clampOutcome tv) 1
          [(m, MCTSTree.node
            (if (p == 'Y') then clampOutcome tv else -(clampOutcome tv)) 1 [])]).children
        = [(m, MCTSTree.node
            (if (p == 'Y') then clampOutcome tv else -(clampOutcome tv)) 1 [])] from rfl]
    cases hpY : (p == 'Y') with
    | true =>
      rw [hpY] at hcond hfm hf0
      simp only [eq_self_iff_true, if_true] at hcond hfm hf0 ⊢
      have hdom := decision_dominant_max
        (moveValue [(m, MCTSTree.node (clampOutcome tv) 1 [])])
        s.get_legal_moves m hmem hf0 (by rw [hfm]; exact_mod_cast hcond)
      exact pickBest_some _ _ _ _ hdom
    | false =>
      rw [hpY] at hcond hfm hf0
      simp only [Bool.false_eq_true, if_false] at hcond hfm hf0 ⊢
      have hdom := decision_dominant_min
        (moveValue [(m, MCTSTree.node (-(clampOutcome tv)) 1 [])])
        s.get_legal_moves m hmem hf0 (by rw [hfm]; exact_mod_cast hcond)
      exact pickBest_some _ _ _ _ hdom

/-- Nearly full position, 'Y' to move, where expanding column 1 completes a
vertical four for 'Y' immediately (favorable single rollout). -/
def yWinBoard : ConnectFour :=
  ⟨[rowOf "RYRYRYR", rowOf "RYRYRYR", rowOf "YRYRYRY", rowOf "YRYRYRY",
    rowOf "YYRYRYR", rowOf "OORYRYR"], some (4, 0), [(4, 0)]⟩

/-- Witness for C2: on `yWinBoard` with the draw stream `[0]`, the single
simulation expands column 1, the rollout is an immediate 'Y' win, and the
returned move is that expanded column. -/
theorem c2_single_simulation_witness :
    yWinBoard.Consistent ∧ yWinBoard.is_terminal = (false, none)
    ∧ (∃ cw rw : Int,
        (select_move id id 0 false false false yWinBoard 'Y' 1 [0]).tree
          = MCTSTree.node rw 1
              [(choiceNat yWinBoard.get_legal_moves (rngNext [0]).1, MCTSTree.node cw 1 [])]
        ∧ ((if ('Y' == 'Y') then 0 < cw else cw < 0) →
            (select_move id id 0 false false false yWinBoard 'Y' 1 [0]).move
              = choiceNat yWinBoard.get_legal_moves (rngNext [0]).1)) :=
  ⟨by decide, by decide,
    c2_single_simulation id id 0 false false false yWinBoard 'Y' [0] (by decide) (by decide)⟩

/-- Counterexample to C2 as stated: on the quiet `twoColBoard` with draw
stream `[1, 0]`, the single simulation expands column 2 (the root's only
child is keyed 2), the rollout ends in a draw, and the final decision
returns column 1 — not the expanded move. -/
theorem c2_reported_move_cex :
    twoColBoard.is_terminal = (false, none)
    ∧ (select_move id id 0 false false false twoColBoard 'Y' 1 [1, 0]).tree.children.map
        Prod.fst = [2]
    ∧ choiceNat twoColBoard.get_legal_moves (rngNext [1, 0]).1 = 2
    ∧ (select_move id id 0 false false false twoColBoard 'Y' 1 [1, 0]).move = 1 := by
  with_unfolding_all decide

/-! ## C9: reporting is observation-only -/

theorem selLoop_out_only (sq lg : ℚ → ℚ) (cE : ℚ) (v1 v2 : Bool) :
    ∀ (fuel : Nat) (t : MCTSTree) (s : ConnectFour) (p : Char) (rng : List Nat),
      (selLoop sq lg cE v1 fuel t s p rng).path = (selLoop sq lg cE v2 fuel t s p rng).path
      ∧ (selLoop sq lg cE v1 fuel t s p rng).tree = (selLoop sq lg cE v2 fuel t s p rng).tree
      ∧ (selLoop sq lg cE v1 fuel t s p rng).state = (selLoop sq lg cE v2 fuel t s p rng).state
      ∧ (selLoop sq lg cE v1 fuel t s p rng).player
          = (selLoop sq lg cE v2 fuel t s p rng).player
      ∧ (selLoop sq lg cE v1 fuel t s p rng).rng = (selLoop sq lg cE v2 fuel t s p rng).rng := by
  intro fuel
  induction fuel with
  | zero => intro t s p rng; exact ⟨rfl, rfl, rfl, rfl, rfl⟩
  | succ n ih =>
    intro t s p rng
    simp only [selLoop]
    by_cases h1 : (s.get_legal_moves).length = 0
    · rw [if_pos h1, if_pos h1]; exact ⟨rfl, rfl, rfl, rfl, rfl⟩
    · rw [if_neg h1, if_neg h1]
      by_cases h2 : (s.is_terminal).1 = true
      · rw [if_pos h2, if_pos h2]; exact ⟨rfl, rfl, rfl, rfl, rfl⟩
      · rw [if_neg h2, if_neg h2]
        by_cases h3 : t.is_fully_expanded s.get_legal_moves = true
        · rw [if_pos h3, if_pos h3]
          cases hub : (ucbFold sq lg cE (p == 'Y') t s.get_legal_moves).1.1 with
          | none => exact ⟨rfl, rfl, rfl, rfl, rfl⟩
          | some m =>
            obtain ⟨ihp, iht, ihs, ihpl, ihr⟩ := ih
              ((lookupChild t.children m).getD (MCTSTree.node 0 0 []))
              (s.make_move m p).1 (if p == 'Y' then 'R' else 'Y') rng
            exact ⟨by simp only [ihp], by simp only [iht], by simp only [ihs],
              by simp only [ihpl], by simp only [ihr]⟩
        · rw [if_neg h3, if_neg h3]
          cases hu : (s.get_legal_moves).filter
              (fun m => (lookupChild t.children m).isNone) with
          | nil => exact ⟨rfl, rfl, rfl, rfl, rfl⟩
          | cons u us => exact ⟨rfl, rfl, rfl, rfl, rfl⟩

theorem simulateOnce_state_eq (sq lg : ℚ → ℚ) (cE : ℚ) (vb : Bool) (p : Char) (mx : Bool)
    (st : SimSt) :
    (simulateOnce sq lg cE vb p mx st).state
      = (selLoop sq lg cE vb 43 st.tree st.state p st.rng).path.reverse.foldl
          ConnectFour.undo_move
          ((rolloutLoop 43
              (selLoop sq lg cE vb 43 st.tree st.state p st.rng).state
              (selLoop sq lg cE vb 43 st.tree st.state p st.rng).player
              (selLoop sq lg cE vb 43 st.tree st.state p st.rng).rng).1.reverse.foldl
            ConnectFour.undo_move
            (rolloutLoop 43
              (selLoop sq lg cE vb 43 st.tree st.state p st.rng).state
              (selLoop sq lg cE vb 43 st.tree st.state p st.rng).player
              (selLoop sq lg cE vb 43 st.tree st.state p st.rng).rng).2.1) := rfl

set_option maxHeartbeats 1000000 in
theorem simulateOnce_rng_eq (sq lg : ℚ → ℚ) (cE : ℚ) (vb : Bool) (p : Char) (mx : Bool)
    (st : SimSt) :
    (simulateOnce sq lg cE vb p mx st).rng
      = (rolloutLoop 43
          (selLoop sq lg cE vb 43 st.tree st.state p st.rng).state
          (selLoop sq lg cE vb 43 st.tree st.state p st.rng).player
          (selLoop sq lg cE vb 43 st.tree st.state p st.rng).rng).2.2.2 := rfl

theorem simulateOnce_core (sq lg : ℚ → ℚ) (cE : ℚ) (v1 v2 : Bool) (p : Char) (mx : Bool)
    (st1 st2 : SimSt) (ht : st1.tree = st2.tree) (hs : st1.state = st2.state)
    (hr : st1.rng = st2.rng) :
    (simulateOnce sq lg cE v1 p mx st1).tree = (simulateOnce sq lg cE v2 p mx st2).tree
    ∧ (simulateOnce sq lg cE v1 p mx st1).state = (simulateOnce sq lg cE v2 p mx st2).state
    ∧ (simulateOnce sq lg cE v1 p mx st1).rng = (simulateOnce sq lg cE v2 p mx st2).rng := by
  obtain ⟨ihp, iht, ihs, ihpl, ihr⟩ :=
    selLoop_out_only sq lg cE v1 v2 43 st1.tree st1.state p st1.rng
  rw [ht, hs, hr] at ihp iht ihs ihpl ihr
  refine ⟨?_, ?_, ?_⟩
  · rw [simulateOnce_tree_eq, simulateOnce_tree_eq, ht, hs, hr, ihp, iht, ihs, ihpl, ihr]
  · rw [simulateOnce_state_eq, simulateOnce_state_eq, ht, hs, hr, ihp, ihs, ihpl, ihr]
  · rw [simulateOnce_rng_eq, simulateOnce_rng_eq, ht, hs, hr, ihs, ihpl, ihr]

theorem runSims_core (sq lg : ℚ → ℚ) (cE : ℚ) (v1 v2 : Bool) (p : Char) (mx : Bool) :
    ∀ (n : Nat) (st1 st2 : SimSt), st1.tree = st2.tree → st1.state = st2.state →
      st1.rng = st2.rng →
      (runSims sq lg cE v1 p mx n st1).tree = (runSims sq lg cE v2 p mx n st2).tree
      ∧ (runSims sq lg cE v1 p mx n st1).state = (runSims sq lg cE v2 p mx n st2).state
      ∧ (runSims sq lg cE v1 p mx n st1).rng = (runSims sq lg cE v2 p mx n st2).rng := by
  intro n
  induction n with
  | zero => intro st1 st2 ht hs hr; exact ⟨ht, hs, hr⟩
  | succ k ih =>
    intro st1 st2 ht hs hr
    obtain ⟨ht1, hs1, hr1⟩ := simulateOnce_core sq lg cE v1 v2 p mx st1 st2 ht hs hr
    exact ih (simulateOnce sq lg cE v1 p mx st1) (simulateOnce sq lg cE v2 p mx st2) ht1 hs1 hr1

/-- C9: for every board, player, simulation count and fixed sequence of
random draws, the move returned by `select_move` is the same whatever the
verbose / brief / suppress reporting flags are — reporting is
observation-only and never changes the decision. -/
theorem c9_reporting_no_effect (sq lg : ℚ → ℚ) (cE : ℚ) (v1 b1 u1 v2 b2 u2 : Bool)
    (game : ConnectFour) (p : Char) (n : Nat) (rng : List Nat) :
    (select_move sq lg cE v1 b1 u1 game p n rng).move
      = (select_move sq lg cE v2 b2 u2 game p n rng).move := by
  rw [select_move_move_eq, select_move_move_eq]
  obtain ⟨ht, hs, -⟩ := runSims_core sq lg cE v1 v2 p (p == 'Y') n
    ⟨MCTSTree.node 0 0 [], game, rng, []⟩ ⟨MCTSTree.node 0 0 [], game, rng, []⟩ rfl rfl rfl
  rw [ht, hs]

/-! ## C5 / C6: specification-side win predicates -/

/-- Cell read at integer coordinates; the sentinel X outside the board. -/
def cellZ (g : Grid) (r c : Int) : Char :=
  if ConnectFour.inB r c then getCell g r.toNat c.toNat else 'X'

/-- The `k` cells strictly beyond `(r, c)` in direction `d` all belong to
`p` (offsets 1 .. k from the placement cell). -/
def runsTo (g : Grid) (p : Char) (r c : Int) (d : Int × Int) (k : Nat) : Bool :=
  (List.range k).all (fun i => cellZ g (r + ((i : Int) + 1) * d.1) (c + ((i : Int) + 1) * d.2) == p)

/-- The count of contiguous `p`-cells through `(r, c)` along the axis pair
`dp` (the cell itself plus both outward runs) reaches at least 4. -/
def axisWin (g : Grid) (p : Char) (r c : Int) (dp : (Int × Int) × (Int × Int)) : Bool :=
  (List.range 4).any (fun a => runsTo g p r c dp.1 a && runsTo g p r c dp.2 (3 - a))

def fourDirs : List (Int × Int) := [(0, 1), (1, 0), (1, 1), (1, -1)]

/-- Four consecutive cells starting at `(r, c)` in direction `d` hold the
same non-empty mark. -/
def isWindow (g : Grid) (r c : Int) (d : Int × Int) : Bool :=
  let p := cellZ g r c
  (!(p == 'O')) && (!(p == 'X'))
    && (List.range 4).all (fun i => cellZ g (r + (i : Int) * d.1) (c + (i : Int) * d.2) == p)

/-- A four-in-a-row exists somewhere on the board. -/
def existsFour (g : Grid) : Bool :=
  ConnectFour.allCells.any (fun rc => fourDirs.any (fun d => isWindow g (rc.1 : Int) (rc.2 : Int) d))

/-- Some occupied cell has a contiguous line of at least 4 through it. -/
def winThroughAt (g : Grid) (rc : Nat × Nat) : Bool :=
  let p := getCell g rc.1 rc.2
  (!(p == 'O')) && ConnectFour.dirPairs.any (fun dp => axisWin g p (rc.1 : Int) (rc.2 : Int) dp)

def hasWinThrough (g : Grid) : Bool :=
  ConnectFour.allCells.any (winThroughAt g)

/-- The data-model invariant on cell contents: every in-board cell holds
R, Y or O. -/
def GridOK (g : Grid) : Prop :=
  ∀ r, r < 6 → ∀ c, c < 7 → getCell g r c = 'R' ∨ getCell g r c = 'Y' ∨ getCell g r c = 'O'

instance (g : Grid) : Decidable (GridOK g) := by
  unfold GridOK; infer_instance

theorem mem_allCells (a b : Nat) : (a, b) ∈ ConnectFour.allCells ↔ a < 6 ∧ b < 7 := by
  simp [ConnectFour.allCells]

theorem cellZ_eq_getCell (g : Grid) (a b : Nat) (ha : a < 6) (hb : b < 7) :
    cellZ g (a : Int) (b : Int) = getCell g a b := by
  have h : ConnectFour.inB (a : Int) (b : Int) = true := by
    simp [ConnectFour.inB]
    omega
  simp [cellZ, h]

theorem inB_of_cellZ (g : Grid) (r c : Int) (p : Char) (hp : p ≠ 'X')
    (h : cellZ g r c = p) : ConnectFour.inB r c = true := by
  by_contra hb
  simp only [cellZ, Bool.not_eq_true] at h
  rw [if_neg (by simp [hb])] at h
  exact hp h.symm

/-- Characterization of the `_check_win` walking loop: it reaches at least
`a` when the first `a` cells from its start all match. -/
theorem countDir_ge_iff (g : Grid) (p : Char) (hp : p ≠ 'X') :
    ∀ (a fuel : Nat) (r c dx dy : Int), a ≤ fuel →
      (a ≤ ConnectFour.countDir g p fuel r c dx dy
        ↔ ∀ i : Nat, i < a → cellZ g (r + (i : Int) * dx) (c + (i : Int) * dy) = p) := by
  intro a
  induction a with
  | zero => intro fuel r c dx dy hf; simp
  | succ a ih =>
    intro fuel r c dx dy hf
    cases fuel with
    | zero => omega
    | succ f =>
      have hcond : (ConnectFour.inB r c && (getCell g r.toNat c.toNat == p)) = true
          ↔ cellZ g r c = p := by
        constructor
        · intro h
          simp only [Bool.and_eq_true, beq_iff_eq] at h
          simp [cellZ, h.1, h.2]
        · intro h
          have hb := inB_of_cellZ g r c p hp h
          simp only [cellZ, hb, if_true] at h
          simp [hb, h]
      constructor
      · intro h i hi
        have hc : (ConnectFour.inB r c && (getCell g r.toNat c.toNat == p)) = true := by
          by_contra hc
          simp only [ConnectFour.countDir, Bool.not_eq_true] at h
          rw [if_neg (by simp [hc])] at h
          omega
        have hrest : a ≤ ConnectFour.countDir g p f (r + dx) (c + dy) dx dy := by
          simp only [ConnectFour.countDir, hc, if_true] at h
          omega
        cases i with
        | zero => simpa using hcond.mp hc
        | succ j =>
          have hj : j < a := by omega
          have := (ih f (r + dx) (c + dy) dx dy (by omega)).mp hrest j hj
          have harg1 : r + dx + (j : Int) * dx = r + ((j : Int) + 1) * dx := by ring
          have harg2 : c + dy + (j : Int) * dy = c + ((j : Int) + 1) * dy := by ring
          rw [harg1, harg2] at this
          simpa [Nat.cast_succ] using this
      · intro h
        have h0 : cellZ g r c = p := by simpa using h 0 (by omega)
        have hc := hcond.mpr h0
        have hrest : a ≤ ConnectFour.countDir g p f (r + dx) (c + dy) dx dy := by
          refine (ih f (r + dx) (c + dy) dx dy (by omega)).mpr ?_
          intro j hj
          have := h (j + 1) (by omega)
          have harg1 : r + dx + (j : Int) * dx = r + ((j : Int) + 1) * dx := by ring
          have harg2 : c + dy + (j : Int) * dy = c + ((j : Int) + 1) * dy := by ring
          rw [harg1, harg2]
          simpa [Nat.cast_succ] using this
        simp only [ConnectFour.countDir, hc, if_true]
        omega

theorem countDir_ge_iff_runsTo (g : Grid) (p : Char) (hp : p ≠ 'X') (r c : Int)
    (d : Int × Int) (a : Nat) (ha : a ≤ 7) :
    a ≤ ConnectFour.countDir g p 7 (r + d.1) (c + d.2) d.1 d.2
      ↔ runsTo g p r c d a = true := by
  rw [countDir_ge_iff g p hp a 7 (r + d.1) (c + d.2) d.1 d.2 ha]
  rw [runsTo, List.all_eq_true]
  constructor
  · intro h i hi
    simp only [List.mem_range] at hi
    have := h i hi
    have harg1 : r + d.1 + (i : Int) * d.1 = r + ((i : Int) + 1) * d.1 := by ring
    have harg2 : c + d.2 + (i : Int) * d.2 = c + ((i : Int) + 1) * d.2 := by ring
    rw [harg1, harg2] at this
    simp [this]
  · intro h i hi
    have := h i (by simp [hi])
    simp only [beq_iff_eq] at this
    have harg1 : r + d.1 + (i : Int) * d.1 = r + ((i : Int) + 1) * d.1 := by ring
    have harg2 : c + d.2 + (i : Int) * d.2 = c + ((i : Int) + 1) * d.2 := by ring
    rw [harg1, harg2]
    exact this

/-- One axis pair of `_check_win` reaches a count of 4 iff the axis-win
predicate holds. -/
theorem axis_cnt_iff (g : Grid) (p : Char) (hp : p ≠ 'X') (r c : Int)
    (dp : (Int × Int) × (Int × Int)) :
    4 ≤ 1 + ConnectFour.countDir g p 7 (r + dp.1.1) (c + dp.1.2) dp.1.1 dp.1.2
        + ConnectFour.countDir g p 7 (r + dp.2.1) (c + dp.2.2) dp.2.1 dp.2.2
      ↔ axisWin g p r c dp = true := by
  rw [axisWin, List.any_eq_true]
  constructor
  · intro h
    set n1 := ConnectFour.countDir g p 7 (r + dp.1.1) (c + dp.1.2) dp.1.1 dp.1.2 with hn1
    set n2 := ConnectFour.countDir g p 7 (r + dp.2.1) (c + dp.2.2) dp.2.1 dp.2.2 with hn2
    refine ⟨min n1 3, by simp only [List.mem_range]; omega, ?_⟩
    rw [Bool.and_eq_true]
    constructor
    · exact (countDir_ge_iff_runsTo g p hp r c dp.1 (min n1 3) (by omega)).mp (by omega)
    · exact (countDir_ge_iff_runsTo g p hp r c dp.2 (3 - min n1 3) (by omega)).mp (by omega)
  · rintro ⟨a, ha, hab⟩
    simp only [List.mem_range] at ha
    rw [Bool.and_eq_true] at hab
    have h1 := (countDir_ge_iff_runsTo g p hp r c dp.1 a (by omega)).mpr hab.1
    have h2 := (countDir_ge_iff_runsTo g p hp r c dp.2 (3 - a) (by omega)).mpr hab.2
    omega

/-- `_check_win` finds no winner iff no axis through the cell reaches 4. -/
theorem check_win_none_iff (s : ConnectFour) (r c : Nat)
    (hp : getCell s.board r c ≠ 'X') :
    s._check_win r c = none
      ↔ ∀ dp ∈ ConnectFour.dirPairs,
          axisWin s.board (getCell s.board r c) (r : Int) (c : Int) dp = false := by
  rw [ConnectFour._check_win, List.findSome?_eq_none_iff]
  constructor
  · intro h dp hdp
    have := h dp hdp
    by_contra hax
    rw [Bool.not_eq_false] at hax
    rw [if_pos ((axis_cnt_iff s.board _ hp (r : Int) (c : Int) dp).mpr hax)] at this
    exact absurd this (by simp)
  · intro h dp hdp
    rw [if_neg ?_]
    intro hc
    have := (axis_cnt_iff s.board _ hp (r : Int) (c : Int) dp).mp hc
    rw [h dp hdp] at this
    exact absurd this (by simp)

/-- When `_check_win` reports a winner, it is the owner of the checked cell. -/
theorem check_win_some_val (s : ConnectFour) (r c : Nat) (w : Char)
    (h : s._check_win r c = some w) : w = getCell s.board r c := by
  rw [ConnectFour._check_win] at h
  obtain ⟨dp, -, hdp⟩ := List.exists_of_findSome?_eq_some h
  by_cases hc : 4 ≤ 1
      + ConnectFour.countDir s.board (getCell s.board r c) 7
          ((r : Int) + dp.1.1) ((c : Int) + dp.1.2) dp.1.1 dp.1.2
      + ConnectFour.countDir s.board (getCell s.board r c) 7
          ((r : Int) + dp.2.1) ((c : Int) + dp.2.2) dp.2.1 dp.2.2
  · simp only [if_pos hc, Option.some.injEq] at hdp
    exact hdp.symm
  · simp only [if_neg hc] at hdp
    exact absurd hdp (by simp)

/-- C6: with the last-move marker set on an occupied cell, `is_terminal`
reports a win exactly when one of the four axis pairs has at least 4
contiguous cells of the placed player's mark through the placement cell
(counting the cell itself and extending outward both ways); the reported
value is -1 for winner 'R' and +1 for winner 'Y'. -/
theorem c6_win_detection (s : ConnectFour) (r c : Nat) (p : Char)
    (hl : s.last_move = some (r, c)) (hcell : getCell s.board r c = p)
    (hp : p = 'R' ∨ p = 'Y') :
    s.is_terminal = (true, some (if p = 'R' then (-1 : Int) else 1))
      ↔ ∃ dp ∈ ConnectFour.dirPairs, axisWin s.board p (r : Int) (c : Int) dp = true := by
  have hpx : p ≠ 'X' := by rcases hp with rfl | rfl <;> decide
  have hpx' : getCell s.board r c ≠ 'X' := by rw [hcell]; exact hpx
  cases hw : s._check_win r c with
  | some w =>
    have hwp : w = p := by rw [← hcell]; exact check_win_some_val s r c w hw
    subst hwp
    have hterm : s.is_terminal = (true, some (if w == 'R' then -1 else 1)) := by
      simp [ConnectFour.is_terminal, hl, hw]
    constructor
    · intro _
      by_contra hax
      push_neg at hax
      have hnone : s._check_win r c = none := by
        refine (check_win_none_iff s r c hpx').mpr ?_
        intro dp hdp
        rw [hcell]
        exact Bool.not_eq_true _ ▸ (hax dp hdp)
      rw [hw] at hnone
      exact absurd hnone (by simp)
    · intro _
      rw [hterm]
      rcases hp with rfl | rfl <;> simp
  | none =>
    have hterm : s.is_terminal
        = (if s.get_legal_moves.length = 0 then (true, some 0) else (false, none)) := by
      simp [ConnectFour.is_terminal, hl, hw]
    constructor
    · intro h
      exfalso
      rw [hterm] at h
      by_cases hlen : s.get_legal_moves.length = 0
      · rw [if_pos hlen] at h
        rcases hp with rfl | rfl <;> simp at h
      · rw [if_neg hlen] at h
        rcases hp with rfl | rfl <;> simp at h
    · rintro ⟨dp, hdp, haxw⟩
      exfalso
      have := (check_win_none_iff s r c hpx').mp hw dp hdp
      rw [hcell, haxw] at this
      exact absurd this (by simp)

/-- A vertical four for 'R' in column 1, last move at its top. -/
def rWinBoard : ConnectFour :=
  ⟨[rowOf "ROOOOOO", rowOf "ROOOOOO", rowOf "ROOOOOO", rowOf "ROOOOOO",
    rowOf "OOOOOOO", rowOf "OOOOOOO"], some (3, 0), [(3, 0)]⟩

/-- Witness for C6: the vertical four is detected and valued -1; and on the
quiet `twoColBoard` with marker (4,0) no axis reaches 4 and no win is
reported. -/
theorem c6_win_detection_witness :
    rWinBoard.is_terminal = (true, some (-1 : Int))
    ∧ ¬(twoColBoard.is_terminal
          = (true, some (if 'R' = 'R' then (-1 : Int) else 1))) := by
  constructor
  · have h := (c6_win_detection rWinBoard 3 0 'R' (by decide) (by decide)
      (Or.inl rfl)).mpr (by decide)
    simpa using h
  · intro hterm
    have h := (c6_win_detection twoColBoard 4 0 'R' (by decide) (by decide)
      (Or.inl rfl)).mp hterm
    revert h
    decide

theorem runsTo_elt (g : Grid) (p : Char) (a b : Int) (d : Int × Int) (k : Nat)
    (h : runsTo g p a b d k = true) (j : Nat) (hj : j < k) :
    cellZ g (a + ((j : Int) + 1) * d.1) (b + ((j : Int) + 1) * d.2) = p := by
  rw [runsTo, List.all_eq_true] at h
  have := h j (by simp [hj])
  simpa using this

theorem runsTo_intro (g : Grid) (p : Char) (a b : Int) (d : Int × Int) (k : Nat)
    (h : ∀ j : Nat, j < k →
      cellZ g (a + ((j : Int) + 1) * d.1) (b + ((j : Int) + 1) * d.2) = p) :
    runsTo g p a b d k = true := by
  rw [runsTo, List.all_eq_true]
  intro j hj
  simp only [List.mem_range] at hj
  simp [h j hj]

/-- The 4 cells of the window whose base sits `3-k` steps behind `(a, b)` in
direction `d` all hold `p`, given matching runs of length `k` forward and
`3-k` backward through `(a, b)`. -/
theorem window_cells (g : Grid) (p : Char) (a b : Int) (d : Int × Int) (k : Nat)
    (hk : k ≤ 3) (h1 : runsTo g p a b d k = true)
    (h2 : runsTo g p a b (-d.1, -d.2) (3 - k) = true) (hbase : cellZ g a b = p) :
    ∀ i : Nat, i < 4 →
      cellZ g (a - ((3 - k : Nat) : Int) * d.1 + (i : Int) * d.1)
        (b - ((3 - k : Nat) : Int) * d.2 + (i : Int) * d.2) = p := by
  intro i hi
  rcases Nat.lt_trichotomy i (3 - k) with hlt | heq | hgt
  · have hu : i + 1 ≤ 3 - k := hlt
    have h3 := runsTo_elt g p a b (-d.1, -d.2) (3 - k) h2 ((3 - k) - i - 1) (by omega)
    have harg1 : a + (((3 - k - i - 1 : Nat) : Int) + 1) * (-d.1, -d.2).1
        = a - ((3 - k : Nat) : Int) * d.1 + (i : Int) * d.1 := by
      have hcast : ((3 - k - i - 1 : Nat) : Int) = ((3 - k : Nat) : Int) - (i : Int) - 1 := by
        omega
      rw [hcast]; ring
    have harg2 : b + (((3 - k - i - 1 : Nat) : Int) + 1) * (-d.1, -d.2).2
        = b - ((3 - k : Nat) : Int) * d.2 + (i : Int) * d.2 := by
      have hcast : ((3 - k - i - 1 : Nat) : Int) = ((3 - k : Nat) : Int) - (i : Int) - 1 := by
        omega
      rw [hcast]; ring
    rw [harg1, harg2] at h3
    exact h3
  · have harg1 : a - ((3 - k : Nat) : Int) * d.1 + (i : Int) * d.1 = a := by
      have : ((3 - k : Nat) : Int) = (i : Int) := by omega
      rw [this]; ring
    have harg2 : b - ((3 - k : Nat) : Int) * d.2 + (i : Int) * d.2 = b := by
      have : ((3 - k : Nat) : Int) = (i : Int) := by omega
      rw [this]; ring
    rw [harg1, harg2]
    exact hbase
  · have h3 := runsTo_elt g p a b d k h1 (i - (3 - k) - 1) (by omega)
    have hcast : ((i - (3 - k) - 1 : Nat) : Int) = (i : Int) - ((3 - k : Nat) : Int) - 1 := by
      omega
    have harg1 : a + (((i - (3 - k) - 1 : Nat) : Int) + 1) * d.1
        = a - ((3 - k : Nat) : Int) * d.1 + (i : Int) * d.1 := by
      rw [hcast]; ring
    have harg2 : b + (((i - (3 - k) - 1 : Nat) : Int) + 1) * d.2
        = b - ((3 - k : Nat) : Int) * d.2 + (i : Int) * d.2 := by
      rw [hcast]; ring
    rw [harg1, harg2] at h3
    exact h3

/-- A through-cell win yields a four-in-a-row window somewhere. -/
theorem window_of_through (g : Grid) (a b : Nat) (hab : (a, b) ∈ ConnectFour.allCells)
    (hpx : getCell g a b ≠ 'X') (h : winThroughAt g (a, b) = true) :
    existsFour g = true := by
  obtain ⟨ha6, hb7⟩ := (mem_allCells a b).mp hab
  have hcz : cellZ g (a : Int) (b : Int) = getCell g a b := cellZ_eq_getCell g a b ha6 hb7
  simp only [winThroughAt, Bool.and_eq_true, Bool.not_eq_true', beq_eq_false_iff_ne,
    List.any_eq_true] at h
  obtain ⟨hpO, dp, hdp, hax⟩ := h
  simp only [axisWin, List.any_eq_true, List.mem_range, Bool.and_eq_true] at hax
  obtain ⟨k, hk4, hr1, hr2⟩ := hax
  have hdp2 : dp.2 = (-dp.1.1, -dp.1.2) ∧ dp.1 ∈ fourDirs := by
    simp only [ConnectFour.dirPairs, List.mem_cons, List.not_mem_nil, or_false] at hdp
    rcases hdp with rfl | rfl | rfl | rfl <;>
      exact ⟨rfl, by simp [fourDirs]⟩
  have hr2' : runsTo g (getCell g a b) (a : Int) (b : Int)
      (-dp.1.1, -dp.1.2) (3 - k) = true := by
    rw [← hdp2.1]
    exact hr2
  have hcells := window_cells g (getCell g a b) (a : Int) (b : Int) dp.1 k
    (by omega) hr1 hr2' hcz
  set br : Int := (a : Int) - ((3 - k : Nat) : Int) * dp.1.1 with hbr
  set bc : Int := (b : Int) - ((3 - k : Nat) : Int) * dp.1.2 with hbc
  have hbase : cellZ g br bc = getCell g a b := by
    have := hcells 0 (by omega)
    simpa using this
  have hpx2 : getCell g a b ≠ 'X' := hpx
  have hinb : ConnectFour.inB br bc = true :=
    inB_of_cellZ g br bc (getCell g a b) hpx2 hbase
  have hB : 0 ≤ br ∧ br < 6 ∧ 0 ≤ bc ∧ bc < 7 := by
    simp only [ConnectFour.inB, Bool.and_eq_true, decide_eq_true_eq] at hinb
    exact ⟨hinb.1.1.1, hinb.1.1.2, hinb.1.2, hinb.2⟩
  have hbrn : ((br.toNat : Nat) : Int) = br := Int.toNat_of_nonneg hB.1
  have hbcn : ((bc.toNat : Nat) : Int) = bc := Int.toNat_of_nonneg hB.2.2.1
  rw [existsFour, List.any_eq_true]
  refine ⟨(br.toNat, bc.toNat), ?_, ?_⟩
  · rw [mem_allCells]
    omega
  · rw [List.any_eq_true]
    refine ⟨dp.1, hdp2.2, ?_⟩
    simp only [isWindow, Bool.and_eq_true, Bool.not_eq_true', beq_eq_false_iff_ne]
    have hbase' : cellZ g ((br.toNat : Nat) : Int) ((bc.toNat : Nat) : Int)
        = getCell g a b := by rw [hbrn, hbcn]; exact hbase
    refine ⟨⟨by rw [hbase']; exact hpO, by rw [hbase']; exact hpx⟩, ?_⟩
    rw [List.all_eq_true]
    intro i hi
    simp only [List.mem_range] at hi
    have := hcells i hi
    rw [hbrn, hbcn]
    simp [this, hbase]

/-- A four-in-a-row window yields a through-cell win at its base. -/
theorem through_of_window (g : Grid) (a b : Nat) (hab : (a, b) ∈ ConnectFour.allCells)
    (d : Int × Int) (hd : d ∈ fourDirs)
    (h : isWindow g (a : Int) (b : Int) d = true) : hasWinThrough g = true := by
  obtain ⟨ha6, hb7⟩ := (mem_allCells a b).mp hab
  have hcz : cellZ g (a : Int) (b : Int) = getCell g a b := cellZ_eq_getCell g a b ha6 hb7
  simp only [isWindow, Bool.and_eq_true, Bool.not_eq_true', beq_eq_false_iff_ne,
    List.all_eq_true] at h
  obtain ⟨⟨hpO, -⟩, hall⟩ := h
  have hall' : ∀ i : Nat, i < 4 →
      cellZ g ((a : Int) + (i : Int) * d.1) ((b : Int) + (i : Int) * d.2)
        = getCell g a b := by
    intro i hi
    have := hall i (by simp [hi])
    rw [← hcz]
    simpa using this
  have hrun3 : runsTo g (getCell g a b) (a : Int) (b : Int) d 3 = true := by
    refine runsTo_intro g _ _ _ d 3 ?_
    intro j hj
    exact hall' (j + 1) (by omega)
  rw [hasWinThrough, List.any_eq_true]
  refine ⟨(a, b), hab, ?_⟩
  simp only [winThroughAt, Bool.and_eq_true, Bool.not_eq_true', beq_eq_false_iff_ne]
  refine ⟨by rw [← hcz]; exact hpO, ?_⟩
  rw [List.any_eq_true]
  simp only [fourDirs, List.mem_cons, List.not_mem_nil, or_false] at hd
  have hpick : ∀ dp : (Int × Int) × (Int × Int), dp ∈ ConnectFour.dirPairs → dp.1 = d →
      (axisWin g (getCell g a b) (a : Int) (b : Int) dp = true) →
      ∃ dp' ∈ ConnectFour.dirPairs,
        axisWin g (getCell g a b) (a : Int) (b : Int) dp' = true :=
    fun dp hdp _ hax => ⟨dp, hdp, hax⟩
  have haxis : ∀ dp : (Int × Int) × (Int × Int), dp.1 = d →
      axisWin g (getCell g a b) (a : Int) (b : Int) dp = true := by
    intro dp hdp1
    rw [axisWin, List.any_eq_true]
    refine ⟨3, by simp, ?_⟩
    rw [Bool.and_eq_true]
    constructor
    · rw [hdp1]; exact hrun3
    · simp [runsTo]
  rcases hd with rfl | rfl | rfl | rfl
  · exact ⟨((0, 1), (0, -1)), by simp [ConnectFour.dirPairs], haxis _ rfl⟩
  · exact ⟨((1, 0), (-1, 0)), by simp [ConnectFour.dirPairs], haxis _ rfl⟩
  · exact ⟨((1, 1), (-1, -1)), by simp [ConnectFour.dirPairs], haxis _ rfl⟩
  · exact ⟨((1, -1), (-1, 1)), by simp [ConnectFour.dirPairs], haxis _ rfl⟩

/-- Gravity invariant of the data model: an occupied cell sits on an
occupied cell (equivalently, each column's pieces form a contiguous run from
row 0). -/
def Gravity (g : Grid) : Prop :=
  ∀ r, r < 5 → ∀ c, c < 7 → getCell g (r + 1) c ≠ 'O' → getCell g r c ≠ 'O'

instance (g : Grid) : Decidable (Gravity g) := by
  unfold Gravity; infer_instance

theorem gravity_col (g : Grid) (hg : Gravity g) (c : Nat) (hc : c < 7)
    (htop : getCell g 5 c ≠ 'O') : ∀ r, r < 6 → getCell g r c ≠ 'O' := by
  have hstep : ∀ k, k < 6 → getCell g (5 - k) c ≠ 'O' := by
    intro k
    induction k with
    | zero => intro _; exact htop
    | succ j ih =>
      intro hk
      have hj : 5 - (j + 1) + 1 = 5 - j := by omega
      refine hg (5 - (j + 1)) (by omega) c hc ?_
      rw [hj]
      exact ih (by omega)
  intro r hr
  have := hstep (5 - r) (by omega)
  rwa [show 5 - (5 - r) = r by omega] at this

theorem scan_none_iff (s : ConnectFour) (hok : GridOK s.board) :
    s._check_board_for_win = none ↔ existsFour s.board = false := by
  rw [ConnectFour._check_board_for_win, List.findSome?_eq_none_iff]
  constructor
  · intro h
    by_contra hex
    rw [Bool.not_eq_false, existsFour, List.any_eq_true] at hex
    obtain ⟨⟨x, y⟩, hrc, hw⟩ := hex
    rw [List.any_eq_true] at hw
    obtain ⟨d, hd, hwin⟩ := hw
    have hpx0 : getCell s.board x y ≠ 'X' := by
      obtain ⟨h6, h7⟩ := (mem_allCells x y).mp hrc
      rcases hok x h6 y h7 with hh | hh | hh <;> simp [hh]
    have hth := through_of_window s.board x y hrc d hd hwin
    rw [hasWinThrough, List.any_eq_true] at hth
    obtain ⟨⟨x', y'⟩, hrc', hth'⟩ := hth
    have hcell := h (x', y') hrc'
    simp only [winThroughAt, Bool.and_eq_true, Bool.not_eq_true', beq_eq_false_iff_ne,
      List.any_eq_true] at hth'
    obtain ⟨hpO', dp, hdp, hax⟩ := hth'
    rw [if_neg (by simp [hpO'])] at hcell
    have hpx : getCell s.board x' y' ≠ 'X' := by
      obtain ⟨h6, h7⟩ := (mem_allCells x' y').mp hrc'
      rcases hok x' h6 y' h7 with hh | hh | hh <;> simp [hh]
    have := (check_win_none_iff s x' y' hpx).mp hcell dp hdp
    rw [hax] at this
    exact absurd this (by simp)
  · intro hex rc hrc
    obtain ⟨x, y⟩ := rc
    by_cases hO : getCell s.board x y = 'O'
    · rw [if_pos (by simp [hO])]
    · rw [if_neg (by simp [hO])]
      have hpx : getCell s.board x y ≠ 'X' := by
        obtain ⟨h6, h7⟩ := (mem_allCells x y).mp hrc
        rcases hok x h6 y h7 with hh | hh | hh <;> simp [hh]
      refine (check_win_none_iff s x y hpx).mpr ?_
      intro dp hdp
      by_contra hax
      rw [Bool.not_eq_false] at hax
      have hth : winThroughAt s.board (x, y) = true := by
        simp only [winThroughAt, Bool.and_eq_true, Bool.not_eq_true', beq_eq_false_iff_ne,
          List.any_eq_true]
        exact ⟨hO, dp, hdp, hax⟩
      have := window_of_through s.board x y hrc hpx hth
      rw [hex] at this
      exact absurd this (by simp)

/-- C5 (amended): `get_legal_moves` returns exactly the 1-indexed columns
whose top cell is empty, in ascending order, and is empty exactly when every
column's top cell is occupied (under the gravity invariant: exactly when the
whole board is full).  `is_terminal` reports the draw `(True, 0)` exactly
when the board is full and the win scan it performs finds nothing: with no
last-move marker that scan covers the whole board, so "no four-in-a-row
anywhere" as originally claimed; with a marker set, only lines through the
marked cell are checked, so a four-in-a-row elsewhere can coexist with a
reported draw. -/
theorem c5_legal_and_draw (s : ConnectFour) (hok : GridOK s.board) :
    (∀ m, m ∈ s.get_legal_moves ↔ 1 ≤ m ∧ m ≤ 7 ∧ getCell s.board 5 (m - 1) = 'O')
    ∧ List.Sorted (· < ·) s.get_legal_moves
    ∧ (s.get_legal_moves = [] ↔ ∀ c, c < 7 → getCell s.board 5 c ≠ 'O')
    ∧ (Gravity s.board →
        (s.get_legal_moves = []
          ↔ ∀ r, r < 6 → ∀ c, c < 7 → getCell s.board r c ≠ 'O'))
    ∧ (s.last_move = none →
        (s.is_terminal = (true, some 0)
          ↔ s.get_legal_moves = [] ∧ existsFour s.board = false))
    ∧ (∀ r c, s.last_move = some (r, c) → r < 6 → c < 7 →
        (s.is_terminal = (true, some 0)
          ↔ s.get_legal_moves = []
            ∧ ∀ dp ∈ ConnectFour.dirPairs,
                axisWin s.board (getCell s.board r c) (r : Int) (c : Int) dp = false)) := by
  have hempty : s.get_legal_moves = [] ↔ ∀ c, c < 7 → getCell s.board 5 c ≠ 'O' := by
    rw [ConnectFour.get_legal_moves, List.map_eq_nil_iff, List.filter_eq_nil_iff]
    constructor
    · intro h c hc hcell
      exact absurd (by simp [hcell]) (h c (by simp [hc]))
    · intro h c hc
      simp only [List.mem_range] at hc
      simp [h c hc]
  refine ⟨fun m => s.mem_legal_iff m, legal_sorted s, hempty, ?_, ?_, ?_⟩
  · intro hg
    rw [hempty]
    constructor
    · intro h r hr c hc
      exact gravity_col s.board hg c hc (h c hc) r hr
    · intro h c hc
      exact h 5 (by omega) c hc
  · intro hl
    cases hw : s._check_board_for_win with
    | some w =>
      have hterm : s.is_terminal = (true, some (if w == 'R' then -1 else 1)) := by
        simp [ConnectFour.is_terminal, hl, hw]
      constructor
      · intro h
        rw [hterm] at h
        exfalso
        cases hb : (w == 'R') <;> rw [hb] at h <;> simp at h
      · rintro ⟨-, hex⟩
        exfalso
        have := (scan_none_iff s hok).mpr hex
        rw [hw] at this
        exact absurd this (by simp)
    | none =>
      have hterm : s.is_terminal
          = (if s.get_legal_moves.length = 0 then (true, some 0) else (false, none)) := by
        simp [ConnectFour.is_terminal, hl, hw]
      rw [hterm]
      constructor
      · intro h
        by_cases hlen : s.get_legal_moves.length = 0
        · exact ⟨List.length_eq_zero.mp hlen, (scan_none_iff s hok).mp hw⟩
        · rw [if_neg hlen] at h
          exact absurd h (by simp)
      · rintro ⟨hnil, -⟩
        rw [if_pos (by simp [hnil])]
  · intro r c hl hr hc
    have hpx : getCell s.board r c ≠ 'X' := by
      rcases hok r hr c hc with hh | hh | hh <;> simp [hh]
    cases hw : s._check_win r c with
    | some w =>
      have hterm : s.is_terminal = (true, some (if w == 'R' then -1 else 1)) := by
        simp [ConnectFour.is_terminal, hl, hw]
      constructor
      · intro h
        rw [hterm] at h
        exfalso
        cases hb : (w == 'R') <;> rw [hb] at h <;> simp at h
      · rintro ⟨-, hax⟩
        exfalso
        have := (check_win_none_iff s r c hpx).mpr hax
        rw [hw] at this
        exact absurd this (by simp)
    | none =>
      have hterm : s.is_terminal
          = (if s.get_legal_moves.length = 0 then (true, some 0) else (false, none)) := by
        simp [ConnectFour.is_terminal, hl, hw]
      rw [hterm]
      constructor
      · intro h
        by_cases hlen : s.get_legal_moves.length = 0
        · exact ⟨List.length_eq_zero.mp hlen, (check_win_none_iff s r c hpx).mp hw⟩
        · rw [if_neg hlen] at h
          exact absurd h (by simp)
      · rintro ⟨hnil, -⟩
        rw [if_pos (by simp [hnil])]

/-- Full board whose bottom row holds an R four-in-a-row in columns 1-4,
with the last-move marker on the harmless top-right cell. -/
def c5Board : ConnectFour :=
  ⟨[rowOf "RRRRYYR", rowOf "RYRYRYR", rowOf "YRYRYRY", rowOf "YRYRYRY",
    rowOf "RYRYRYR", rowOf "RYRYRYR"], some (5, 6), [(5, 6)]⟩

/-- Counterexample to C5 as stated: `c5Board` is full and contains a
four-in-a-row (R in columns 1-4 of the bottom row), yet `is_terminal`
reports the draw `(True, 0)` because the win check only looks at lines
through the marked cell (5,6). -/
theorem c5_draw_cex :
    c5Board.is_terminal = (true, some 0) ∧ existsFour c5Board.board = true := by
  decide

/-- Witness for C5 on a concrete position. -/
theorem c5_legal_and_draw_witness :
    GridOK twoColBoard.board
    ∧ ((∀ m, m ∈ twoColBoard.get_legal_moves
          ↔ 1 ≤ m ∧ m ≤ 7 ∧ getCell twoColBoard.board 5 (m - 1) = 'O')
      ∧ List.Sorted (· < ·) twoColBoard.get_legal_moves
      ∧ (twoColBoard.get_legal_moves = []
          ↔ ∀ c, c < 7 → getCell twoColBoard.board 5 c ≠ 'O')
      ∧ (Gravity twoColBoard.board →
          (twoColBoard.get_legal_moves = []
            ↔ ∀ r, r < 6 → ∀ c, c < 7 → getCell twoColBoard.board r c ≠ 'O'))
      ∧ (twoColBoard.last_move = none →
          (twoColBoard.is_terminal = (true, some 0)
            ↔ twoColBoard.get_legal_moves = [] ∧ existsFour twoColBoard.board = false))
      ∧ (∀ r c, twoColBoard.last_move = some (r, c) → r < 6 → c < 7 →
          (twoColBoard.is_terminal = (true, some 0)
            ↔ twoColBoard.get_legal_moves = []
              ∧ ∀ dp ∈ ConnectFour.dirPairs,
                  axisWin twoColBoard.board (getCell twoColBoard.board r c)
                    (r : Int) (c : Int) dp = false))) :=
  ⟨by decide, c5_legal_and_draw twoColBoard (by decide)⟩
